import Mathlib

/-!
# callander: x86-64 prefix decoder, instruction view, classifiers and field decoders

A shallow embedding of `src/x86.h` and of the syscall bridge of
`src/thread_func.c`.  Pointers are natural-number addresses into a
byte-addressed memory, `uint8_t` loads are reduced modulo `256`, and C `int`
results are integers.  The length disassembler (`InstructionSize_x86_64`) and its
sentinel `INSTRUCTION_INVALID` come from a header that is not part of the
sources at hand, so they are parameters of `x86_decode_instruction`; likewise
the thread-storage accessor and the syscall handler are parameters of
`thread_receive_syscall`.  The body of `x86_decode_jump_instruction` is not in
the sources either and is modelled from the specification.
-/

namespace Callander

/-! ## Memory -/

/-- Byte-addressed memory: the value stored at each address. -/
abbrev Mem := Nat → Nat

/-- Load of one `uint8_t` through a pointer. -/
def load8 (mem : Mem) (p : Nat) : Nat := mem p % 256

/-- Memory that holds the bytes `bs` from address `base` on and zero elsewhere. -/
def bytesAt (base : Nat) (bs : List Nat) : Mem :=
  fun a => if a < base then 0 else bs.getD (a - base) 0

/-! ## Prefix flags (`struct x86_ins_prefixes`) -/

/-- The record `struct x86_ins_prefixes`: one single-bit boolean per field. -/
structure x86_ins_prefixes where
  has_lock : Bool
  has_repne : Bool
  has_rep : Bool
  has_w : Bool
  has_r : Bool
  has_x : Bool
  has_b : Bool
  has_any_rex : Bool
  has_segment_override : Bool
  has_notrack : Bool
  has_operand_size_override : Bool
  has_address_size_override : Bool
  has_vex : Bool
deriving DecidableEq, Repr

/-- The zero-initialised record `{ 0 }`. -/
def x86_ins_prefixes.zero : x86_ins_prefixes :=
  { has_lock := false, has_repne := false, has_rep := false, has_w := false,
    has_r := false, has_x := false, has_b := false, has_any_rex := false,
    has_segment_override := false, has_notrack := false,
    has_operand_size_override := false, has_address_size_override := false,
    has_vex := false }

/-! ## The prefix scan (`x86_decode_ins_prefixes`) -/

/-- The mutable state of the scan: the cursor `*ins` and the record `result`. -/
structure Scan where
  ins : Nat
  result : x86_ins_prefixes
deriving DecidableEq, Repr

/-- How one pass through the loop body ends: by reaching the shared `++(*ins)` at
the bottom (`next`), or by a `break` (`brk`). -/
inductive Flow where
  | next (s : Scan)
  | brk (s : Scan)
deriving DecidableEq, Repr

/-- One pass through the body of the `for` loop, branch by branch as in the
source.  The branches that skip data bytes bump the cursor before the shared
increment; the two `break` branches leave the cursor where it is. -/
def scan_body (mem : Mem) (s : Scan) : Flow :=
  let value := load8 mem s.ins
  if value = 0xf0 then
    .next ⟨s.ins + 1, { s.result with has_lock := true }⟩
  else if value = 0xf2 then
    .next ⟨s.ins + 1, { s.result with has_repne := true }⟩
  else if value = 0xf3 then
    .next ⟨s.ins + 1, { s.result with has_rep := true }⟩
  else if value &&& 0xf0 = 0x40 then
    .next ⟨s.ins + 1,
      { s.result with
        has_w := decide (value &&& 0x8 ≠ 0)
        has_r := decide (value &&& 0x4 ≠ 0)
        has_x := decide (value &&& 0x2 ≠ 0)
        has_b := decide (value &&& 0x1 ≠ 0)
        has_any_rex := true }⟩
  else if value = 0x66 then
    .next ⟨s.ins + 1, { s.result with has_operand_size_override := true }⟩
  else if value = 0x67 then
    .brk ⟨s.ins, { s.result with has_address_size_override := true }⟩
  else if value = 0x2e then
    .next ⟨s.ins + 1, { s.result with has_segment_override := true }⟩
  else if value = 0x36 then
    .next ⟨s.ins + 1, { s.result with has_segment_override := true }⟩
  else if value = 0x3e then
    .next ⟨s.ins + 1, { s.result with has_segment_override := true }⟩
  else if value = 0x26 then
    .next ⟨s.ins + 1, { s.result with has_segment_override := true }⟩
  else if value = 0x64 then
    .next ⟨s.ins + 1, { s.result with has_segment_override := true }⟩
  else if value = 0x65 then
    .next ⟨s.ins + 1, { s.result with has_segment_override := true }⟩
  else if value = 0x2e then
    .next ⟨s.ins + 1, s.result⟩
  else if value = 0x3e then
    .next ⟨s.ins + 1, s.result⟩
  else if value = 0xc4 then
    .next ⟨s.ins + 1 + 1 + 1, { s.result with has_vex := true }⟩
  else if value = 0xc5 then
    .next ⟨s.ins + 1 + 1, { s.result with has_vex := true }⟩
  else if value = 0x8f then
    .next ⟨s.ins + 1 + 1 + 1, s.result⟩
  else
    .brk s

/-- The loop `for (int i = 0; i < 16; i++)` with `n` iterations still to run. -/
def scan_loop (mem : Mem) : Nat → Scan → Scan
  | 0, s => s
  | n + 1, s =>
    match scan_body mem s with
    | .next s' => scan_loop mem n s'
    | .brk s' => s'

/-- The leading `if (**ins == 0x3e)` that records the notrack byte. -/
def scan_notrack (mem : Mem) (ins : Nat) : Scan :=
  if load8 mem ins = 0x3e then
    ⟨ins + 1, { x86_ins_prefixes.zero with has_notrack := true }⟩
  else
    ⟨ins, x86_ins_prefixes.zero⟩

/-- The function `x86_decode_ins_prefixes`: the returned record together with the
final value of the caller's cursor `*ins`. -/
def x86_decode_ins_prefixes (mem : Mem) (ins : Nat) : x86_ins_prefixes × Nat :=
  let s := scan_loop mem 16 (scan_notrack mem ins)
  (s.result, s.ins)

/-! ## Decoded instructions (`struct x86_instruction`) -/

/-- The record `struct x86_instruction`. -/
structure x86_instruction where
  unprefixed : Nat
  length : Int
  prefixes : x86_ins_prefixes
deriving DecidableEq, Repr

/-- The function `x86_decode_instruction`: the returned `bool` and the record
written through `out_ins`.  The length disassembler and its invalid sentinel are
declared in `x86_64_length_disassembler.h` and enter as parameters. -/
def x86_decode_instruction (InstructionSize_x86_64 : Mem → Nat → Nat → Int)
    (INSTRUCTION_INVALID : Int) (mem : Mem) (addr : Nat) : Bool × x86_instruction :=
  let length := InstructionSize_x86_64 mem addr 0xf
  if length = INSTRUCTION_INVALID then
    (false, { unprefixed := addr, length := length, prefixes := x86_ins_prefixes.zero })
  else
    let r := x86_decode_ins_prefixes mem addr
    (true, { unprefixed := r.2, length := length, prefixes := r.1 })

/-! ## Classifiers -/

/-- The predicate `x86_is_endbr64_instruction`. -/
def x86_is_endbr64_instruction (mem : Mem) (ins : x86_instruction) : Bool :=
  ins.prefixes.has_rep && load8 mem ins.unprefixed == 0x0f
    && load8 mem (ins.unprefixed + 1) == 0x1e && load8 mem (ins.unprefixed + 2) == 0xfa

/-- The helper `x86_next_instruction`: `addr + ins->length`. -/
def x86_next_instruction (addr : Nat) (ins : x86_instruction) : Int :=
  (addr : Int) + ins.length

/-- The predicate `x86_is_return_instruction`: a `switch` on the first byte. -/
def x86_is_return_instruction (mem : Mem) (ins : x86_instruction) : Bool :=
  match load8 mem ins.unprefixed with
  | 0xc3 => true
  | 0xc2 => true
  | 0xcb => true
  | 0xca => true
  | _ => false

def x86_is_jo_instruction (mem : Mem) (ins : x86_instruction) : Bool :=
  load8 mem ins.unprefixed == 0x70
    || (load8 mem ins.unprefixed == 0x0f && load8 mem (ins.unprefixed + 1) == 0x80)

def x86_is_jno_instruction (mem : Mem) (ins : x86_instruction) : Bool :=
  load8 mem ins.unprefixed == 0x71
    || (load8 mem ins.unprefixed == 0x0f && load8 mem (ins.unprefixed + 1) == 0x81)

def x86_is_jb_instruction (mem : Mem) (ins : x86_instruction) : Bool :=
  load8 mem ins.unprefixed == 0x72
    || (load8 mem ins.unprefixed == 0x0f && load8 mem (ins.unprefixed + 1) == 0x82)

def x86_is_jae_instruction (mem : Mem) (ins : x86_instruction) : Bool :=
  load8 mem ins.unprefixed == 0x73
    || (load8 mem ins.unprefixed == 0x0f && load8 mem (ins.unprefixed + 1) == 0x83)

def x86_is_je_instruction (mem : Mem) (ins : x86_instruction) : Bool :=
  load8 mem ins.unprefixed == 0x74
    || (load8 mem ins.unprefixed == 0x0f && load8 mem (ins.unprefixed + 1) == 0x84)

def x86_is_jne_instruction (mem : Mem) (ins : x86_instruction) : Bool :=
  load8 mem ins.unprefixed == 0x75
    || (load8 mem ins.unprefixed == 0x0f && load8 mem (ins.unprefixed + 1) == 0x85)

def x86_is_jbe_instruction (mem : Mem) (ins : x86_instruction) : Bool :=
  load8 mem ins.unprefixed == 0x76
    || (load8 mem ins.unprefixed == 0x0f && load8 mem (ins.unprefixed + 1) == 0x86)

def x86_is_ja_instruction (mem : Mem) (ins : x86_instruction) : Bool :=
  load8 mem ins.unprefixed == 0x77
    || (load8 mem ins.unprefixed == 0x0f && load8 mem (ins.unprefixed + 1) == 0x87)

def x86_is_js_instruction (mem : Mem) (ins : x86_instruction) : Bool :=
  load8 mem ins.unprefixed == 0x78
    || (load8 mem ins.unprefixed == 0x0f && load8 mem (ins.unprefixed + 1) == 0x88)

def x86_is_jns_instruction (mem : Mem) (ins : x86_instruction) : Bool :=
  load8 mem ins.unprefixed == 0x79
    || (load8 mem ins.unprefixed == 0x0f && load8 mem (ins.unprefixed + 1) == 0x89)

def x86_is_jp_instruction (mem : Mem) (ins : x86_instruction) : Bool :=
  load8 mem ins.unprefixed == 0x7a
    || (load8 mem ins.unprefixed == 0x0f && load8 mem (ins.unprefixed + 1) == 0x8a)

def x86_is_jpo_instruction (mem : Mem) (ins : x86_instruction) : Bool :=
  load8 mem ins.unprefixed == 0x7b
    || (load8 mem ins.unprefixed == 0x0f && load8 mem (ins.unprefixed + 1) == 0x8b)

def x86_is_jl_instruction (mem : Mem) (ins : x86_instruction) : Bool :=
  load8 mem ins.unprefixed == 0x7c
    || (load8 mem ins.unprefixed == 0x0f && load8 mem (ins.unprefixed + 1) == 0x8c)

def x86_is_jge_instruction (mem : Mem) (ins : x86_instruction) : Bool :=
  load8 mem ins.unprefixed == 0x7d
    || (load8 mem ins.unprefixed == 0x0f && load8 mem (ins.unprefixed + 1) == 0x8d)

def x86_is_jng_instruction (mem : Mem) (ins : x86_instruction) : Bool :=
  load8 mem ins.unprefixed == 0x7e
    || (load8 mem ins.unprefixed == 0x0f && load8 mem (ins.unprefixed + 1) == 0x8e)

def x86_is_jg_instruction (mem : Mem) (ins : x86_instruction) : Bool :=
  load8 mem ins.unprefixed == 0x7f
    || (load8 mem ins.unprefixed == 0x0f && load8 mem (ins.unprefixed + 1) == 0x8f)

/-- The sixteen conditional-jump predicates in opcode order, each applied to the
same decoded instruction. -/
def jcc_results (mem : Mem) (ins : x86_instruction) : List Bool :=
  [ x86_is_jo_instruction mem ins, x86_is_jno_instruction mem ins,
    x86_is_jb_instruction mem ins, x86_is_jae_instruction mem ins,
    x86_is_je_instruction mem ins, x86_is_jne_instruction mem ins,
    x86_is_jbe_instruction mem ins, x86_is_ja_instruction mem ins,
    x86_is_js_instruction mem ins, x86_is_jns_instruction mem ins,
    x86_is_jp_instruction mem ins, x86_is_jpo_instruction mem ins,
    x86_is_jl_instruction mem ins, x86_is_jge_instruction mem ins,
    x86_is_jng_instruction mem ins, x86_is_jg_instruction mem ins ]

/-! ## Field decoders -/

/-- The bit-field record `x86_mod_rm_t`: `rm : 3`, `reg : 3`, `mod : 2`. -/
structure x86_mod_rm_t where
  rm : Nat
  reg : Nat
  mod : Nat
deriving DecidableEq, Repr

/-- The union overlay of `x86_read_modrm`: a byte reinterpreted as the bit-field
record.  On x86-64 (System V ABI) bit-fields are allocated from the least
significant bit upwards, so `rm` takes bits 0..2, `reg` bits 3..5, `mod` bits 6..7. -/
def x86_mod_rm_t.pun (byte : Nat) : x86_mod_rm_t :=
  { rm := byte % 8, reg := byte / 8 % 8, mod := byte / 64 % 4 }

/-- The function `x86_read_modrm`: reads `*byte` and overlays the record on it. -/
def x86_read_modrm (mem : Mem) (byte : Nat) : x86_mod_rm_t :=
  x86_mod_rm_t.pun (load8 mem byte)

/-- The function `x86_read_reg`: `modrm.reg + (rex.has_r << 3)`. -/
def x86_read_reg (modrm : x86_mod_rm_t) (rex : x86_ins_prefixes) : Int :=
  (modrm.reg : Int) + ((rex.has_r.toNat <<< 3 : Nat) : Int)

/-- The function `x86_read_rm`: `modrm.rm + (rex.has_b << 3)`. -/
def x86_read_rm (modrm : x86_mod_rm_t) (rex : x86_ins_prefixes) : Int :=
  (modrm.rm : Int) + ((rex.has_b.toNat <<< 3 : Nat) : Int)

/-- The predicate `x86_modrm_is_direct`: `modrm.mod == 3`. -/
def x86_modrm_is_direct (modrm : x86_mod_rm_t) : Bool :=
  modrm.mod == 3

/-- The bit-field record `x86_sib_t`: `base : 3`, `index : 3`, `scale : 2`. -/
structure x86_sib_t where
  base : Nat
  index : Nat
  scale : Nat
deriving DecidableEq, Repr

/-- The union overlay of `x86_read_sib`, with the same bit allocation as
`x86_mod_rm_t.pun`. -/
def x86_sib_t.pun (byte : Nat) : x86_sib_t :=
  { base := byte % 8, index := byte / 8 % 8, scale := byte / 64 % 4 }

/-- The function `x86_read_sib`: reads `*byte` and overlays the record on it. -/
def x86_read_sib (mem : Mem) (byte : Nat) : x86_sib_t :=
  x86_sib_t.pun (load8 mem byte)

/-- The function `x86_read_base`: `sib.base + (rex.has_b << 3)`. -/
def x86_read_base (sib : x86_sib_t) (rex : x86_ins_prefixes) : Int :=
  (sib.base : Int) + ((rex.has_b.toNat <<< 3 : Nat) : Int)

/-- The function `x86_read_index`: `sib.index + (rex.has_x << 3)`. -/
def x86_read_index (sib : x86_sib_t) (rex : x86_ins_prefixes) : Int :=
  (sib.index : Int) + ((rex.has_x.toNat <<< 3 : Nat) : Int)

/-- The function `x86_read_opcode_register_index`:
`opcode_value - opcode_start + ((int)rex.has_b << 3)`.  The two `uint8_t`
parameters are promoted to `int` before the subtraction. -/
def x86_read_opcode_register_index (opcode_value opcode_start : Nat)
    (rex : x86_ins_prefixes) : Int :=
  ((opcode_value % 256 : Nat) : Int) - ((opcode_start % 256 : Nat) : Int)
    + ((rex.has_b.toNat <<< 3 : Nat) : Int)

/-! ## The syscall bridge (`src/thread_func.c`) -/

/-- The function `thread_receive_syscall`.  The frame `data` is the seven-slot
array behind the pointer argument.  The collaborators `get_thread_storage` and
`handle_syscall` are declared in headers outside the sources; they enter as
parameters acting on a state `σ` of the surrounding runtime, so that each call
made to them shows in the final state.  The last argument of the handler is the
pointer `NULL`, the address 0. -/
def thread_receive_syscall {σ τ : Type} (get_thread_storage : σ → τ × σ)
    (handle_syscall : σ → τ → Int → Int → Int → Int → Int → Int → Int → Nat → Int × σ)
    (w : σ) (data : List Int) : List Int × σ :=
  let t := get_thread_storage w
  let r := handle_syscall t.2 t.1 (data.getD 0 0) (data.getD 1 0) (data.getD 2 0)
    (data.getD 3 0) (data.getD 4 0) (data.getD 5 0) (data.getD 6 0) 0
  (data.set 0 r.1, r.2)

/-! ## Instrumented views of the prefix scan -/

/-- The scan state carried by either way of leaving the loop body. -/
def Flow.scan : Flow → Scan
  | .next s => s
  | .brk s => s

/-- The addresses from which the successive passes of the loop load
`value = **ins`, for `n` iterations still to run: one load per pass begun. -/
def scan_loop_reads (mem : Mem) : Nat → Scan → List Nat
  | 0, _ => []
  | n + 1, s =>
    s.ins :: (match scan_body mem s with
      | .next s' => scan_loop_reads mem n s'
      | .brk _ => [])

/-- The addresses loaded by `x86_decode_ins_prefixes`: the notrack test
`**ins == 0x3e` at the start address, then the loads of the loop. -/
def x86_decode_ins_prefixes_reads (mem : Mem) (ins : Nat) : List Nat :=
  ins :: scan_loop_reads mem 16 (scan_notrack mem ins)

/-- The number of passes of the loop that end at the shared `++(*ins)`: the
prefix bytes the loop recognises and moves the cursor past (an introducer with
its skipped data bytes counts once). -/
def scan_loop_consumed (mem : Mem) : Nat → Scan → Nat
  | 0, _ => 0
  | n + 1, s =>
    match scan_body mem s with
    | .next s' => 1 + scan_loop_consumed mem n s'
    | .brk _ => 0

/-- The number of prefix bytes `x86_decode_ins_prefixes` recognises and consumes:
the leading notrack byte, when present, and those of the loop. -/
def prefix_bytes_consumed (mem : Mem) (ins : Nat) : Nat :=
  (if load8 mem ins = 0x3e then 1 else 0) + scan_loop_consumed mem 16 (scan_notrack mem ins)

/-- One instrumented run of the loop: the state in which the loop ends together
with the number of its passes that ended at the shared `++(*ins)`. -/
def scan_loop_counted (mem : Mem) : Nat → Scan → Scan × Nat
  | 0, s => (s, 0)
  | n + 1, s =>
    match scan_body mem s with
    | .next s' => ((scan_loop_counted mem n s').1, 1 + (scan_loop_counted mem n s').2)
    | .brk s' => (s', 0)

/-- The decoder run with the counter: the returned record and final cursor,
together with the number of prefix bytes recognised and consumed (the leading
notrack byte, when present, and those of the sixteen-pass loop). -/
def x86_decode_ins_prefixes_counted (mem : Mem) (ins : Nat) : (x86_ins_prefixes × Nat) × Nat :=
  let r := scan_loop_counted mem 16 (scan_notrack mem ins)
  ((r.1.result, r.1.ins), (if load8 mem ins = 0x3e then 1 else 0) + r.2)

/-- The REX bytes (values 0x40..0x4F) among the bytes loaded by the loop, in scan
order. -/
def rex_bytes_scanned (mem : Mem) (n : Nat) (s : Scan) : List Nat :=
  ((scan_loop_reads mem n s).map (load8 mem)).filter (fun v => 0x40 ≤ v ∧ v ≤ 0x4f)

/-- The five REX-related flags of a record: any-REX, W, R, X, B. -/
def x86_ins_prefixes.rex_flags (p : x86_ins_prefixes) : Bool × Bool × Bool × Bool × Bool :=
  (p.has_any_rex, p.has_w, p.has_r, p.has_x, p.has_b)

/-! ## The scan without the two hint branches -/

/-- The loop body of `scan_body` with the two branch-hint branches (the second
tests for 0x2e and 0x3e) removed and every other branch kept in order. -/
def scan_body_no_hints (mem : Mem) (s : Scan) : Flow :=
  let value := load8 mem s.ins
  if value = 0xf0 then
    .next ⟨s.ins + 1, { s.result with has_lock := true }⟩
  else if value = 0xf2 then
    .next ⟨s.ins + 1, { s.result with has_repne := true }⟩
  else if value = 0xf3 then
    .next ⟨s.ins + 1, { s.result with has_rep := true }⟩
  else if value &&& 0xf0 = 0x40 then
    .next ⟨s.ins + 1,
      { s.result with
        has_w := decide (value &&& 0x8 ≠ 0)
        has_r := decide (value &&& 0x4 ≠ 0)
        has_x := decide (value &&& 0x2 ≠ 0)
        has_b := decide (value &&& 0x1 ≠ 0)
        has_any_rex := true }⟩
  else if value = 0x66 then
    .next ⟨s.ins + 1, { s.result with has_operand_size_override := true }⟩
  else if value = 0x67 then
    .brk ⟨s.ins, { s.result with has_address_size_override := true }⟩
  else if value = 0x2e then
    .next ⟨s.ins + 1, { s.result with has_segment_override := true }⟩
  else if value = 0x36 then
    .next ⟨s.ins + 1, { s.result with has_segment_override := true }⟩
  else if value = 0x3e then
    .next ⟨s.ins + 1, { s.result with has_segment_override := true }⟩
  else if value = 0x26 then
    .next ⟨s.ins + 1, { s.result with has_segment_override := true }⟩
  else if value = 0x64 then
    .next ⟨s.ins + 1, { s.result with has_segment_override := true }⟩
  else if value = 0x65 then
    .next ⟨s.ins + 1, { s.result with has_segment_override := true }⟩
  else if value = 0xc4 then
    .next ⟨s.ins + 1 + 1 + 1, { s.result with has_vex := true }⟩
  else if value = 0xc5 then
    .next ⟨s.ins + 1 + 1, { s.result with has_vex := true }⟩
  else if value = 0x8f then
    .next ⟨s.ins + 1 + 1 + 1, s.result⟩
  else
    .brk s

/-- The sixteen-iteration loop over `scan_body_no_hints`. -/
def scan_loop_no_hints (mem : Mem) : Nat → Scan → Scan
  | 0, s => s
  | n + 1, s =>
    match scan_body_no_hints mem s with
    | .next s' => scan_loop_no_hints mem n s'
    | .brk s' => s'

/-- The prefix decoder with the two hint branches removed. -/
def x86_decode_ins_prefixes_no_hints (mem : Mem) (ins : Nat) : x86_ins_prefixes × Nat :=
  let s := scan_loop_no_hints mem 16 (scan_notrack mem ins)
  (s.result, s.ins)

/-! ## The unified jump decode -/

/-- Modelled from the spec: the enumeration `ins_jump_behavior`, of which the
sources hold only the name.  The four cases are the spec's Jump Behavior
results: not a jump, unconditional direct, conditional direct, indirect. -/
inductive ins_jump_behavior where
  | not_a_jump
  | unconditional_direct
  | conditional_direct
  | indirect
deriving DecidableEq, Repr

/-- A one-byte displacement read as a signed value. -/
def sign_extend8 (b : Nat) : Int :=
  if b % 256 < 128 then ((b % 256 : Nat) : Int) else ((b % 256 : Nat) : Int) - 256

/-- A four-byte little-endian displacement (`x86_int32`) read as a signed value. -/
def read_int32 (mem : Mem) (p : Nat) : Int :=
  let u := load8 mem p + 256 * load8 mem (p + 1) + 65536 * load8 mem (p + 2)
    + 16777216 * load8 mem (p + 3)
  if u < 2147483648 then (u : Int) else (u : Int) - 4294967296

/-- Modelled from the spec: the body of `x86_decode_jump_instruction`, of which
the sources hold only the declaration.  Section 4.4 of the spec: unconditional
short (EB) and near (E9) jumps and the sixteen conditional forms (70..7F short,
0F 80..8F near) are direct, with target the address of the next instruction plus
the sign-extended displacement, one byte wide for short and four bytes wide for
near forms; the register or memory forms of the jump (FF /4, FF /5) are indirect
and carry no target; every other opcode is not a jump.  The displacement is the
last field of these encodings, so the next instruction starts right after it.
The spec leaves open whether calls count as jumps; they are not modelled.  The
result pairs the returned behaviour with the value stored through `out_jump`. -/
def x86_decode_jump_instruction (mem : Mem) (ins : x86_instruction) :
    ins_jump_behavior × Option Int :=
  let op := load8 mem ins.unprefixed
  let op2 := load8 mem (ins.unprefixed + 1)
  if op = 0xeb then
    (.unconditional_direct, some ((ins.unprefixed : Int) + 2 + sign_extend8 op2))
  else if op = 0xe9 then
    (.unconditional_direct,
      some ((ins.unprefixed : Int) + 5 + read_int32 mem (ins.unprefixed + 1)))
  else if 0x70 ≤ op ∧ op ≤ 0x7f then
    (.conditional_direct, some ((ins.unprefixed : Int) + 2 + sign_extend8 op2))
  else if op = 0x0f ∧ 0x80 ≤ op2 ∧ op2 ≤ 0x8f then
    (.conditional_direct,
      some ((ins.unprefixed : Int) + 6 + read_int32 mem (ins.unprefixed + 2)))
  else if op = 0xff ∧ (op2 / 8 % 8 = 4 ∨ op2 / 8 % 8 = 5) then
    (.indirect, none)
  else
    (.not_a_jump, none)

/-! ## Specification vocabulary -/

/-- The byte values for which the loop body of the scan takes a branch other than
the final `else`: the guards of the `if` chain of `scan_body`, in source order
(the two shadowed hint guards repeat 0x2e and 0x3e and add nothing). -/
def is_prefix_byte (value : Nat) : Bool :=
  value == 0xf0 || value == 0xf2 || value == 0xf3 || (value &&& 0xf0 == 0x40)
    || value == 0x66 || value == 0x67 || value == 0x2e || value == 0x36 || value == 0x3e
    || value == 0x26 || value == 0x64 || value == 0x65 || value == 0xc4 || value == 0xc5
    || value == 0x8f

/-! ## Basic facts -/

theorem load8_lt (mem : Mem) (p : Nat) : load8 mem p < 256 :=
  Nat.mod_lt _ (by decide)

/-- The arithmetic overlay agrees with the shift-and-mask reading of a byte. -/
theorem pun_bits (b : Nat) (hb : b < 256) :
    b % 8 = b &&& 7 ∧ b / 8 % 8 = (b >>> 3) &&& 7 ∧ b / 64 % 4 = b >>> 6 := by
  have h7 : b &&& 7 = b % 8 := Nat.and_pow_two_sub_one_eq_mod b 3
  have h3 : (b >>> 3) &&& 7 = (b >>> 3) % 8 := Nat.and_pow_two_sub_one_eq_mod _ 3
  rw [h7, h3, Nat.shiftRight_eq_div_pow, Nat.shiftRight_eq_div_pow]
  refine ⟨rfl, rfl, ?_⟩
  omega

/-- A three-bit field extended by one REX bit shifted into bit 3. -/
theorem extended_index (field : Nat) (bit : Bool) (hf : field < 8) :
    ((field : Int) + ((bit.toNat <<< 3 : Nat) : Int) = ((field + 8 * bit.toNat : Nat) : Int)) ∧
    0 ≤ (field : Int) + ((bit.toNat <<< 3 : Nat) : Int) ∧
    (field : Int) + ((bit.toNat <<< 3 : Nat) : Int) ≤ 15 ∧
    ((field : Int) + ((bit.toNat <<< 3 : Nat) : Int)) % 8 = field ∧
    ((field : Int) + ((bit.toNat <<< 3 : Nat) : Int)) / 8 = bit.toNat := by
  simp only [Nat.shiftLeft_eq]
  cases bit <;> simp only [Bool.toNat_true, Bool.toNat_false] <;> omega

/-! ### The conditional-jump family -/

/-- Sixteen equality tests of one value against sixteen consecutive constants:
exactly one succeeds when the value lies in the range, none otherwise. -/
theorem count_consecutive (x base : Nat) :
    ([x == base, x == base + 1, x == base + 2, x == base + 3, x == base + 4,
      x == base + 5, x == base + 6, x == base + 7, x == base + 8, x == base + 9,
      x == base + 10, x == base + 11, x == base + 12, x == base + 13,
      x == base + 14, x == base + 15] : List Bool).count true =
      if base ≤ x ∧ x ≤ base + 15 then 1 else 0 := by
  by_cases h : base ≤ x ∧ x ≤ base + 15
  · rw [if_pos h]
    obtain ⟨k, rfl⟩ : ∃ k, x = k + base := ⟨x - base, by omega⟩
    have hk : k < 16 := by omega
    simp only [Nat.add_comm base _, Nat.add_right_cancel_iff, beq_iff_eq]
    have e0 : (k + base == base) = (k == 0) := by
      rw [Bool.eq_iff_iff]; simp
    have e : ∀ c, (k + base == c + base) = (k == c) := by
      intro c; rw [Bool.eq_iff_iff]; simp
    rw [e0]; simp only [e]
    interval_cases k <;> rfl
  · rw [if_neg h, List.count_eq_zero]
    simp only [List.mem_cons, List.mem_singleton, List.not_mem_nil, or_false, not_or,
      eq_comm (a := true), beq_iff_eq]
    omega

/-- The number of conditional-jump predicates that hold, read off the two opcode
bytes. -/
theorem jcc_count (mem : Mem) (ins : x86_instruction) :
    (jcc_results mem ins).count true =
      if (0x70 ≤ load8 mem ins.unprefixed ∧ load8 mem ins.unprefixed ≤ 0x7f) ∨
          (load8 mem ins.unprefixed = 0x0f ∧ 0x80 ≤ load8 mem (ins.unprefixed + 1) ∧
            load8 mem (ins.unprefixed + 1) ≤ 0x8f) then 1 else 0 := by
  simp only [jcc_results, x86_is_jo_instruction, x86_is_jno_instruction, x86_is_jb_instruction,
    x86_is_jae_instruction, x86_is_je_instruction, x86_is_jne_instruction,
    x86_is_jbe_instruction, x86_is_ja_instruction, x86_is_js_instruction,
    x86_is_jns_instruction, x86_is_jp_instruction, x86_is_jpo_instruction,
    x86_is_jl_instruction, x86_is_jge_instruction, x86_is_jng_instruction,
    x86_is_jg_instruction]
  generalize load8 mem ins.unprefixed = b0
  generalize load8 mem (ins.unprefixed + 1) = b1
  by_cases hf : b0 = 0x0f
  · subst hf
    have := count_consecutive b1 0x80
    simp only [Nat.reduceAdd] at this
    simpa using this
  · have hb : (b0 == 0x0f) = false := by simpa using hf
    have := count_consecutive b0 0x70
    simp only [Nat.reduceAdd] at this
    simp only [hb, Bool.false_and, Bool.or_false, this]
    simp [hf]

/-- A list of booleans without a true entry holds only false entries. -/
theorem all_false_of_count (l : List Bool) (h : l.count true = 0) :
    ∀ r ∈ l, r = false := by
  intro r hr
  cases r
  · rfl
  · exact absurd hr (List.count_eq_zero.mp h)

/-! ### Steps of the prefix scan -/

theorem scan_loop_next (mem : Mem) (n : Nat) (s s' : Scan) (h : scan_body mem s = .next s') :
    scan_loop mem (n + 1) s = scan_loop mem n s' := by
  rw [scan_loop, h]

theorem scan_loop_brk (mem : Mem) (n : Nat) (s s' : Scan) (h : scan_body mem s = .brk s') :
    scan_loop mem (n + 1) s = s' := by
  rw [scan_loop, h]

theorem scan_notrack_other (mem : Mem) (A : Nat) (h : load8 mem A ≠ 0x3e) :
    scan_notrack mem A = ⟨A, x86_ins_prefixes.zero⟩ := by
  simp only [scan_notrack, h, if_false]

/-- A byte outside the prefix set ends the scan where it stands. -/
theorem scan_body_other_byte (mem : Mem) (s : Scan)
    (h : is_prefix_byte (load8 mem s.ins) = false) : scan_body mem s = .brk s := by
  simp only [is_prefix_byte, Bool.or_eq_false_iff, beq_eq_false_iff_ne, ne_eq] at h
  obtain ⟨⟨⟨⟨⟨⟨⟨⟨⟨⟨⟨⟨⟨⟨h1, h2⟩, h3⟩, h4⟩, h5⟩, h6⟩, h7⟩, h8⟩, h9⟩, h10⟩, h11⟩, h12⟩, h13⟩, h14⟩,
    h15⟩ := h
  simp only [scan_body, h1, h2, h3, h4, h5, h6, h7, h8, h9, h10, h11, h12, h13, h14, h15,
    if_false]

/-- A REX byte stores its four low bits and moves the cursor by one. -/
theorem scan_body_rex (mem : Mem) (s : Scan) (h40 : 0x40 ≤ load8 mem s.ins)
    (h4f : load8 mem s.ins ≤ 0x4f) :
    scan_body mem s = .next ⟨s.ins + 1,
      { s.result with
        has_w := (load8 mem s.ins).testBit 3
        has_r := (load8 mem s.ins).testBit 2
        has_x := (load8 mem s.ins).testBit 1
        has_b := (load8 mem s.ins).testBit 0
        has_any_rex := true }⟩ := by
  unfold scan_body
  generalize load8 mem s.ins = v at h40 h4f
  interval_cases v <;> simp +decide

/-- A rep byte sets `has_rep` and moves the cursor by one. -/
theorem scan_body_rep (mem : Mem) (s : Scan) (h : load8 mem s.ins = 0xf3) :
    scan_body mem s = .next ⟨s.ins + 1, { s.result with has_rep := true }⟩ := by
  simp +decide [scan_body, h]

/-- The address-size override sets its flag and leaves the loop with the cursor
still on the 0x67 byte. -/
theorem scan_body_addr_override (mem : Mem) (s : Scan) (h : load8 mem s.ins = 0x67) :
    scan_body mem s = .brk ⟨s.ins, { s.result with has_address_size_override := true }⟩ := by
  simp +decide [scan_body, h]

/-- The byte 0x8f is taken as an XOP introducer: the cursor moves by three. -/
theorem scan_body_xop (mem : Mem) (s : Scan) (h : load8 mem s.ins = 0x8f) :
    scan_body mem s = .next ⟨s.ins + 1 + 1 + 1, s.result⟩ := by
  simp +decide [scan_body, h]

/-! ## The conditional-jump family is exclusive -/

/-- Claim C1: among the sixteen conditional-jump predicates at most one holds of a
decoded instruction; exactly one holds when the first unprefixed byte lies in
0x70..0x7F, or is 0x0F with the second byte in 0x80..0x8F; for all other opcode
bytes every one of the sixteen is false. -/
theorem jcc_mutually_exclusive (mem : Mem) (ins : x86_instruction) :
    (jcc_results mem ins).length = 16 ∧
    (jcc_results mem ins).count true ≤ 1 ∧
    (((0x70 ≤ load8 mem ins.unprefixed ∧ load8 mem ins.unprefixed ≤ 0x7f) ∨
        (load8 mem ins.unprefixed = 0x0f ∧ 0x80 ≤ load8 mem (ins.unprefixed + 1) ∧
          load8 mem (ins.unprefixed + 1) ≤ 0x8f)) →
      (jcc_results mem ins).count true = 1) ∧
    (¬ ((0x70 ≤ load8 mem ins.unprefixed ∧ load8 mem ins.unprefixed ≤ 0x7f) ∨
        (load8 mem ins.unprefixed = 0x0f ∧ 0x80 ≤ load8 mem (ins.unprefixed + 1) ∧
          load8 mem (ins.unprefixed + 1) ≤ 0x8f)) →
      ∀ r ∈ jcc_results mem ins, r = false) := by
  have hc := jcc_count mem ins
  refine ⟨rfl, ?_, ?_, ?_⟩
  · rw [hc]; split <;> omega
  · intro h; rw [hc, if_pos h]
  · intro h
    apply all_false_of_count
    rw [hc, if_neg h]

/-- Instances of C1: the short form 0x74 and the near form 0F 84 both satisfy the
`je` predicate and no other, and the opcode 0x90 satisfies none. -/
theorem jcc_mutually_exclusive_witness :
    jcc_results (bytesAt 0 [0x74, 0x05]) ⟨0, 2, x86_ins_prefixes.zero⟩ =
      [false, false, false, false, true, false, false, false,
       false, false, false, false, false, false, false, false] ∧
    (jcc_results (bytesAt 0 [0x0f, 0x84, 0, 0, 0, 0]) ⟨0, 6, x86_ins_prefixes.zero⟩).count true
      = 1 ∧
    (∀ r ∈ jcc_results (bytesAt 0 [0x90]) ⟨0, 1, x86_ins_prefixes.zero⟩, r = false) :=
  ⟨by decide,
   (jcc_mutually_exclusive (bytesAt 0 [0x0f, 0x84, 0, 0, 0, 0])
      ⟨0, 6, x86_ins_prefixes.zero⟩).2.2.1 (by decide),
   (jcc_mutually_exclusive (bytesAt 0 [0x90]) ⟨0, 1, x86_ins_prefixes.zero⟩).2.2.2 (by decide)⟩

/-! ## The cursor after an address-size override -/

/-- Claim C2, evaluated at the bytes 67 90: the scan records the address-size
override and stops with the cursor still at offset 0, so the byte under the
final cursor is 0x67, a recognised prefix byte, and not the opcode 0x90 at
offset 1. -/
theorem addr_override_leaves_cursor_on_prefix :
    x86_decode_ins_prefixes (bytesAt 0 [0x67, 0x90]) 0 =
      ({ x86_ins_prefixes.zero with has_address_size_override := true }, 0) ∧
    load8 (bytesAt 0 [0x67, 0x90]) (x86_decode_ins_prefixes (bytesAt 0 [0x67, 0x90]) 0).2
      = 0x67 ∧
    is_prefix_byte
      (load8 (bytesAt 0 [0x67, 0x90]) (x86_decode_ins_prefixes (bytesAt 0 [0x67, 0x90]) 0).2)
      = true ∧
    is_prefix_byte (load8 (bytesAt 0 [0x67, 0x90]) 1) = false := by
  decide

/-! ## The opcode pointer against the instruction length -/

/-- Claim C3, evaluated at the bytes 8F C0 (pop, two bytes long): whenever the
length oracle reports the valid length 2 at address 0, the decode succeeds and
the scan, taking 0x8F for an XOP introducer, moves the opcode pointer to offset
3, past the end of the instruction at offset 2. -/
theorem pop_opcode_pointer_past_end (InstructionSize_x86_64 : Mem → Nat → Nat → Int)
    (INSTRUCTION_INVALID : Int)
    (hlen : InstructionSize_x86_64 (bytesAt 0 [0x8f, 0xc0, 0x90, 0x90]) 0 0xf = 2)
    (hvalid : (2 : Int) ≠ INSTRUCTION_INVALID) :
    x86_decode_instruction InstructionSize_x86_64 INSTRUCTION_INVALID
        (bytesAt 0 [0x8f, 0xc0, 0x90, 0x90]) 0 =
      (true, { unprefixed := 3, length := 2, prefixes := x86_ins_prefixes.zero }) ∧
    ¬ (((x86_decode_instruction InstructionSize_x86_64 INSTRUCTION_INVALID
          (bytesAt 0 [0x8f, 0xc0, 0x90, 0x90]) 0).2.unprefixed : Int) ≤
        0 + (x86_decode_instruction InstructionSize_x86_64 INSTRUCTION_INVALID
          (bytesAt 0 [0x8f, 0xc0, 0x90, 0x90]) 0).2.length) := by
  have hd : x86_decode_ins_prefixes (bytesAt 0 [0x8f, 0xc0, 0x90, 0x90]) 0 =
      (x86_ins_prefixes.zero, 3) := by decide
  have he : x86_decode_instruction InstructionSize_x86_64 INSTRUCTION_INVALID
        (bytesAt 0 [0x8f, 0xc0, 0x90, 0x90]) 0 =
      (true, { unprefixed := 3, length := 2, prefixes := x86_ins_prefixes.zero }) := by
    simp only [x86_decode_instruction, hlen, hvalid, if_false, hd]
  rw [he]
  exact ⟨rfl, by decide⟩

/-- Instance of C3 with an oracle that answers 2 everywhere and the sentinel 0. -/
theorem pop_opcode_pointer_past_end_witness :
    x86_decode_instruction (fun _ _ _ => 2) 0 (bytesAt 0 [0x8f, 0xc0, 0x90, 0x90]) 0 =
      (true, { unprefixed := 3, length := 2, prefixes := x86_ins_prefixes.zero }) :=
  (pop_opcode_pointer_past_end (fun _ _ _ => 2) 0 rfl (by decide)).1

/-! ## The instruction decoder -/

/-- Claim C4: the decode returns false exactly when the length oracle reports the
invalid sentinel; then the record holds the sentinel as length, the all-false
flag record and the original address (the prefix scan is not run).  Otherwise it
returns true with the oracle's length and with the flags and final cursor of the
prefix scan run from the same address. -/
theorem decode_instruction_result (InstructionSize_x86_64 : Mem → Nat → Nat → Int)
    (INSTRUCTION_INVALID : Int) (mem : Mem) (addr : Nat) :
    ((x86_decode_instruction InstructionSize_x86_64 INSTRUCTION_INVALID mem addr).1 = false ↔
      InstructionSize_x86_64 mem addr 0xf = INSTRUCTION_INVALID) ∧
    (InstructionSize_x86_64 mem addr 0xf = INSTRUCTION_INVALID →
      (x86_decode_instruction InstructionSize_x86_64 INSTRUCTION_INVALID mem addr).2 =
        { unprefixed := addr, length := INSTRUCTION_INVALID,
          prefixes := x86_ins_prefixes.zero }) ∧
    (InstructionSize_x86_64 mem addr 0xf ≠ INSTRUCTION_INVALID →
      (x86_decode_instruction InstructionSize_x86_64 INSTRUCTION_INVALID mem addr).1 = true ∧
      (x86_decode_instruction InstructionSize_x86_64 INSTRUCTION_INVALID mem addr).2 =
        { unprefixed := (x86_decode_ins_prefixes mem addr).2,
          length := InstructionSize_x86_64 mem addr 0xf,
          prefixes := (x86_decode_ins_prefixes mem addr).1 }) := by
  by_cases h : InstructionSize_x86_64 mem addr 0xf = INSTRUCTION_INVALID
  · refine ⟨?_, ?_, fun hn => absurd h hn⟩
    · simp only [x86_decode_instruction, h, if_true]
    · intro _
      simp only [x86_decode_instruction, h, if_true]
  · refine ⟨?_, fun hi => absurd hi h, ?_⟩
    · simp only [x86_decode_instruction, h, if_false]
      simp
    · intro _
      simp only [x86_decode_instruction, h, if_false, and_self]

/-- Instances of C4 on the bytes 66 90: an oracle answering the sentinel yields
false, the sentinel, no flags and the start address although an operand-size
prefix is present; an oracle answering 2 yields true with the scan's result. -/
theorem decode_instruction_result_witness :
    x86_decode_instruction (fun _ _ _ => 0) 0 (bytesAt 7 [0x66, 0x90]) 7 =
      (false, { unprefixed := 7, length := 0, prefixes := x86_ins_prefixes.zero }) ∧
    (x86_decode_instruction (fun _ _ _ => 2) 0 (bytesAt 7 [0x66, 0x90]) 7).2 =
      { unprefixed := 8, length := 2,
        prefixes := { x86_ins_prefixes.zero with has_operand_size_override := true } } :=
  ⟨by decide,
   ((decode_instruction_result (fun _ _ _ => 2) 0 (bytesAt 7 [0x66, 0x90]) 7).2.2
      (by decide)).2.trans (by decide)⟩

/-! ## The endbr64 landing pad -/

/-- Claim C5: the endbr64 predicate holds exactly when `has_rep` is set and the
three unprefixed bytes are 0F 1E FA.  On the bytes F3 0F 1E FA the scan yields
the record with only `has_rep` set and the cursor one past the start; every
instruction with that cursor and record is an endbr64, is not a return and
satisfies none of the sixteen conditional-jump predicates.  On the bare bytes
0F 1E FA the scan yields the empty record and the start address, and an
instruction with that cursor and record is not an endbr64. -/
theorem endbr64_requires_rep (mem : Mem) (A : Nat) :
    (∀ ins : x86_instruction, x86_is_endbr64_instruction mem ins = true ↔
      (ins.prefixes.has_rep = true ∧ load8 mem ins.unprefixed = 0x0f ∧
        load8 mem (ins.unprefixed + 1) = 0x1e ∧ load8 mem (ins.unprefixed + 2) = 0xfa)) ∧
    (load8 mem A = 0xf3 → load8 mem (A + 1) = 0x0f → load8 mem (A + 2) = 0x1e →
      load8 mem (A + 3) = 0xfa →
      x86_decode_ins_prefixes mem A =
        ({ x86_ins_prefixes.zero with has_rep := true }, A + 1) ∧
      ∀ ins : x86_instruction, ins.unprefixed = (x86_decode_ins_prefixes mem A).2 →
        ins.prefixes = (x86_decode_ins_prefixes mem A).1 →
        x86_is_endbr64_instruction mem ins = true ∧
        x86_is_return_instruction mem ins = false ∧
        ∀ r ∈ jcc_results mem ins, r = false) ∧
    (load8 mem A = 0x0f → load8 mem (A + 1) = 0x1e → load8 mem (A + 2) = 0xfa →
      x86_decode_ins_prefixes mem A = (x86_ins_prefixes.zero, A) ∧
      ∀ ins : x86_instruction, ins.unprefixed = (x86_decode_ins_prefixes mem A).2 →
        ins.prefixes = (x86_decode_ins_prefixes mem A).1 →
        x86_is_endbr64_instruction mem ins = false) := by
  refine ⟨?_, ?_, ?_⟩
  · intro ins
    simp only [x86_is_endbr64_instruction, Bool.and_eq_true, beq_iff_eq, and_assoc]
  · intro h0 h1 h2 h3
    have hd : x86_decode_ins_prefixes mem A =
        ({ x86_ins_prefixes.zero with has_rep := true }, A + 1) := by
      unfold x86_decode_ins_prefixes
      rw [scan_notrack_other mem A (by omega),
        scan_loop_next mem 15 _ _ (scan_body_rep mem ⟨A, x86_ins_prefixes.zero⟩ h0),
        scan_loop_brk mem 14 _ _
          (scan_body_other_byte mem ⟨A + 1, _⟩ (by rw [h1]; decide))]
    refine ⟨hd, ?_⟩
    intro ins hu hp
    rw [hd] at hu hp
    simp only at hu hp
    have e1 : A + 1 + 1 = A + 2 := by omega
    have e2 : A + 1 + 2 = A + 3 := by omega
    refine ⟨?_, ?_, ?_⟩
    · simp [x86_is_endbr64_instruction, hu, hp, h1, h2, h3, e1, e2]
    · simp [x86_is_return_instruction, hu, h1]
    · apply all_false_of_count
      rw [jcc_count, hu, h1, e1, h2]
      decide
  · intro h0 h1 h2
    have hd : x86_decode_ins_prefixes mem A = (x86_ins_prefixes.zero, A) := by
      unfold x86_decode_ins_prefixes
      rw [scan_notrack_other mem A (by omega),
        scan_loop_brk mem 15 _ _
          (scan_body_other_byte mem ⟨A, _⟩ (by rw [h0]; decide))]
    refine ⟨hd, ?_⟩
    intro ins hu hp
    rw [hd] at hp
    simp only at hp
    simp [x86_is_endbr64_instruction, hp, x86_ins_prefixes.zero]

/-- Instances of C5 at address 0: the scan of F3 0F 1E FA and of the bare
0F 1E FA, with the endbr64 predicate true on the first and false on the second. -/
theorem endbr64_requires_rep_witness :
    (x86_decode_ins_prefixes (bytesAt 0 [0xf3, 0x0f, 0x1e, 0xfa]) 0 =
        ({ x86_ins_prefixes.zero with has_rep := true }, 1) ∧
      x86_is_endbr64_instruction (bytesAt 0 [0xf3, 0x0f, 0x1e, 0xfa])
        ⟨1, 4, { x86_ins_prefixes.zero with has_rep := true }⟩ = true) ∧
    (x86_decode_ins_prefixes (bytesAt 0 [0x0f, 0x1e, 0xfa]) 0 = (x86_ins_prefixes.zero, 0) ∧
      x86_is_endbr64_instruction (bytesAt 0 [0x0f, 0x1e, 0xfa])
        ⟨0, 3, x86_ins_prefixes.zero⟩ = false) :=
  ⟨⟨((endbr64_requires_rep (bytesAt 0 [0xf3, 0x0f, 0x1e, 0xfa]) 0).2.1
        (by decide) (by decide) (by decide) (by decide)).1,
    (((endbr64_requires_rep (bytesAt 0 [0xf3, 0x0f, 0x1e, 0xfa]) 0).2.1
        (by decide) (by decide) (by decide) (by decide)).2
        ⟨1, 4, { x86_ins_prefixes.zero with has_rep := true }⟩ (by decide) (by decide)).1⟩,
   ⟨((endbr64_requires_rep (bytesAt 0 [0x0f, 0x1e, 0xfa]) 0).2.2
        (by decide) (by decide) (by decide)).1,
    ((endbr64_requires_rep (bytesAt 0 [0x0f, 0x1e, 0xfa]) 0).2.2
        (by decide) (by decide) (by decide)).2
        ⟨0, 3, x86_ins_prefixes.zero⟩ (by decide) (by decide)⟩⟩

/-! ## A single REX byte -/

/-- Claim C6: for a REX byte `r` in 0x40..0x4F followed by a byte that is not a
recognised prefix, the scan returns `has_any_rex` set, `has_w`, `has_r`, `has_x`
and `has_b` equal to bits 3, 2, 1 and 0 of `r`, every other flag clear, and the
cursor one past the start. -/
theorem rex_then_opcode (mem : Mem) (A r : Nat) (hr : load8 mem A = r)
    (h40 : 0x40 ≤ r) (h4f : r ≤ 0x4f) (hn : is_prefix_byte (load8 mem (A + 1)) = false) :
    x86_decode_ins_prefixes mem A =
      ({ has_lock := false, has_repne := false, has_rep := false,
         has_w := r.testBit 3, has_r := r.testBit 2, has_x := r.testBit 1,
         has_b := r.testBit 0, has_any_rex := true,
         has_segment_override := false, has_notrack := false,
         has_operand_size_override := false, has_address_size_override := false,
         has_vex := false }, A + 1) := by
  subst hr
  unfold x86_decode_ins_prefixes
  rw [scan_notrack_other mem A (by omega),
    scan_loop_next mem 15 _ _ (scan_body_rex mem ⟨A, x86_ins_prefixes.zero⟩ h40 h4f),
    scan_loop_brk mem 14 _ _ (scan_body_other_byte mem ⟨A + 1, _⟩ hn)]
  rfl

/-- Instance of C6 at the bytes 48 0F 05: exactly `has_w` and `has_any_rex` are set
and the cursor is at offset 1, where the bytes 0F 05 stand. -/
theorem rex_then_opcode_witness :
    x86_decode_ins_prefixes (bytesAt 0 [0x48, 0x0f, 0x05]) 0 =
      ({ x86_ins_prefixes.zero with has_w := true, has_any_rex := true }, 1) ∧
    load8 (bytesAt 0 [0x48, 0x0f, 0x05])
      (x86_decode_ins_prefixes (bytesAt 0 [0x48, 0x0f, 0x05]) 0).2 = 0x0f ∧
    load8 (bytesAt 0 [0x48, 0x0f, 0x05])
      ((x86_decode_ins_prefixes (bytesAt 0 [0x48, 0x0f, 0x05]) 0).2 + 1) = 0x05 :=
  ⟨(rex_then_opcode (bytesAt 0 [0x48, 0x0f, 0x05]) 0 0x48 (by decide) (by decide) (by decide)
      (by decide)).trans (by decide),
   by decide, by decide⟩

/-! ## Register indices extended by REX bits -/

/-- Claim C7: for every ModRM byte, SIB byte and flag record the four readers
return the raw three-bit field plus eight times the matching REX bit (R for
`reg`, B for `rm` and `base`, X for `index`); each result lies in 0..15, its
remainder modulo 8 is the raw field and its quotient by 8 is the REX bit.  With
REX.B set and an `rm` or `base` field of 0 the result is 8. -/
theorem rex_extended_register_index (mem : Mem) (pm ps : Nat) (rex : x86_ins_prefixes) :
    (x86_read_reg (x86_read_modrm mem pm) rex
        = (((x86_read_modrm mem pm).reg + 8 * rex.has_r.toNat : Nat) : Int) ∧
      0 ≤ x86_read_reg (x86_read_modrm mem pm) rex ∧
      x86_read_reg (x86_read_modrm mem pm) rex ≤ 15 ∧
      x86_read_reg (x86_read_modrm mem pm) rex % 8 = (x86_read_modrm mem pm).reg ∧
      x86_read_reg (x86_read_modrm mem pm) rex / 8 = rex.has_r.toNat) ∧
    (x86_read_rm (x86_read_modrm mem pm) rex
        = (((x86_read_modrm mem pm).rm + 8 * rex.has_b.toNat : Nat) : Int) ∧
      0 ≤ x86_read_rm (x86_read_modrm mem pm) rex ∧
      x86_read_rm (x86_read_modrm mem pm) rex ≤ 15 ∧
      x86_read_rm (x86_read_modrm mem pm) rex % 8 = (x86_read_modrm mem pm).rm ∧
      x86_read_rm (x86_read_modrm mem pm) rex / 8 = rex.has_b.toNat) ∧
    (x86_read_base (x86_read_sib mem ps) rex
        = (((x86_read_sib mem ps).base + 8 * rex.has_b.toNat : Nat) : Int) ∧
      0 ≤ x86_read_base (x86_read_sib mem ps) rex ∧
      x86_read_base (x86_read_sib mem ps) rex ≤ 15 ∧
      x86_read_base (x86_read_sib mem ps) rex % 8 = (x86_read_sib mem ps).base ∧
      x86_read_base (x86_read_sib mem ps) rex / 8 = rex.has_b.toNat) ∧
    (x86_read_index (x86_read_sib mem ps) rex
        = (((x86_read_sib mem ps).index + 8 * rex.has_x.toNat : Nat) : Int) ∧
      0 ≤ x86_read_index (x86_read_sib mem ps) rex ∧
      x86_read_index (x86_read_sib mem ps) rex ≤ 15 ∧
      x86_read_index (x86_read_sib mem ps) rex % 8 = (x86_read_sib mem ps).index ∧
      x86_read_index (x86_read_sib mem ps) rex / 8 = rex.has_x.toNat) ∧
    (rex.has_b = true → (x86_read_modrm mem pm).rm = 0 →
      x86_read_rm (x86_read_modrm mem pm) rex = 8) ∧
    (rex.has_b = true → (x86_read_sib mem ps).base = 0 →
      x86_read_base (x86_read_sib mem ps) rex = 8) := by
  have hreg : (x86_read_modrm mem pm).reg < 8 := Nat.mod_lt _ (by decide)
  have hrm : (x86_read_modrm mem pm).rm < 8 := Nat.mod_lt _ (by decide)
  have hbase : (x86_read_sib mem ps).base < 8 := Nat.mod_lt _ (by decide)
  have hindex : (x86_read_sib mem ps).index < 8 := Nat.mod_lt _ (by decide)
  refine ⟨extended_index _ _ hreg, extended_index _ _ hrm, extended_index _ _ hbase,
    extended_index _ _ hindex, ?_, ?_⟩
  · intro hb h0
    simp [x86_read_rm, hb, h0]
  · intro hb h0
    simp [x86_read_base, hb, h0]

/-- Instance of C7: ModRM byte 0xC0 and SIB byte 0x00 under REX.B alone resolve
`rm` and `base` to 8, while `reg` and `index` stay 0. -/
theorem rex_extended_register_index_witness :
    x86_read_rm (x86_read_modrm (bytesAt 0 [0xc0, 0x00]) 0)
      { x86_ins_prefixes.zero with has_b := true, has_any_rex := true } = 8 ∧
    x86_read_base (x86_read_sib (bytesAt 0 [0xc0, 0x00]) 1)
      { x86_ins_prefixes.zero with has_b := true, has_any_rex := true } = 8 ∧
    x86_read_reg (x86_read_modrm (bytesAt 0 [0xc0, 0x00]) 0)
      { x86_ins_prefixes.zero with has_b := true, has_any_rex := true } = 0 ∧
    x86_read_index (x86_read_sib (bytesAt 0 [0xc0, 0x00]) 1)
      { x86_ins_prefixes.zero with has_b := true, has_any_rex := true } = 0 :=
  ⟨(rex_extended_register_index (bytesAt 0 [0xc0, 0x00]) 0 1
      { x86_ins_prefixes.zero with has_b := true, has_any_rex := true }).2.2.2.2.1
      rfl (by decide),
   (rex_extended_register_index (bytesAt 0 [0xc0, 0x00]) 0 1
      { x86_ins_prefixes.zero with has_b := true, has_any_rex := true }).2.2.2.2.2
      rfl (by decide),
   by decide, by decide⟩

/-! ## ModRM and SIB overlays -/

/-- Claim C8: for the byte `b` read by `x86_read_modrm` the fields are
`rm = b & 7`, `reg = (b >> 3) & 7` and `mod = b >> 6`, with
`mod * 64 + reg * 8 + rm = b`; equal field triples come from equal bytes and
every triple within the field widths comes from some byte; the direct test
holds exactly when `mod = 3`, which is exactly when `b >= 0xC0`. -/
theorem modrm_fields (mem : Mem) (p : Nat) :
    (x86_read_modrm mem p).rm = load8 mem p &&& 7 ∧
    (x86_read_modrm mem p).reg = (load8 mem p >>> 3) &&& 7 ∧
    (x86_read_modrm mem p).mod = load8 mem p >>> 6 ∧
    (x86_read_modrm mem p).mod * 64 + (x86_read_modrm mem p).reg * 8
      + (x86_read_modrm mem p).rm = load8 mem p ∧
    (∀ (mem' : Mem) (p' : Nat), x86_read_modrm mem p = x86_read_modrm mem' p' →
      load8 mem p = load8 mem' p') ∧
    (∀ rm reg mod : Nat, rm < 8 → reg < 8 → mod < 4 →
      x86_read_modrm (bytesAt 0 [mod * 64 + reg * 8 + rm]) 0
        = { rm := rm, reg := reg, mod := mod }) ∧
    (x86_modrm_is_direct (x86_read_modrm mem p) = true ↔ (x86_read_modrm mem p).mod = 3) ∧
    (x86_modrm_is_direct (x86_read_modrm mem p) = true ↔ 0xc0 ≤ load8 mem p) := by
  have hb := load8_lt mem p
  obtain ⟨e1, e2, e3⟩ := pun_bits _ hb
  refine ⟨e1, e2, e3, ?_, ?_, ?_, ?_, ?_⟩
  · simp only [x86_read_modrm, x86_mod_rm_t.pun]; omega
  · intro mem' p' h
    have hb' := load8_lt mem' p'
    simp only [x86_read_modrm, x86_mod_rm_t.pun, x86_mod_rm_t.mk.injEq] at h
    omega
  · intro rm reg mod h1 h2 h3
    have hl : load8 (bytesAt 0 [mod * 64 + reg * 8 + rm]) 0 = mod * 64 + reg * 8 + rm := by
      simp only [load8, bytesAt, Nat.lt_irrefl, if_false, Nat.sub_self, List.getD_cons_zero]
      omega
    simp only [x86_read_modrm, hl, x86_mod_rm_t.pun, x86_mod_rm_t.mk.injEq]
    omega
  · simp [x86_modrm_is_direct]
  · simp only [x86_modrm_is_direct, x86_read_modrm, x86_mod_rm_t.pun, beq_iff_eq]
    omega

/-- Claim C9: for the byte `b` read by `x86_read_sib` the fields are
`base = b & 7`, `index = (b >> 3) & 7` and `scale = b >> 6`, a value in 0..3,
with `scale * 64 + index * 8 + base = b`; distinct bytes give distinct field
triples. -/
theorem sib_fields (mem : Mem) (p : Nat) :
    (x86_read_sib mem p).base = load8 mem p &&& 7 ∧
    (x86_read_sib mem p).index = (load8 mem p >>> 3) &&& 7 ∧
    (x86_read_sib mem p).scale = load8 mem p >>> 6 ∧
    (x86_read_sib mem p).scale ≤ 3 ∧
    (x86_read_sib mem p).scale * 64 + (x86_read_sib mem p).index * 8
      + (x86_read_sib mem p).base = load8 mem p ∧
    (∀ (mem' : Mem) (p' : Nat), load8 mem p ≠ load8 mem' p' →
      x86_read_sib mem p ≠ x86_read_sib mem' p') := by
  have hb := load8_lt mem p
  obtain ⟨e1, e2, e3⟩ := pun_bits _ hb
  refine ⟨e1, e2, e3, ?_, ?_, ?_⟩
  · simp only [x86_read_sib, x86_sib_t.pun]; omega
  · simp only [x86_read_sib, x86_sib_t.pun]; omega
  · intro mem' p' hne h
    have hb' := load8_lt mem' p'
    simp only [x86_read_sib, x86_sib_t.pun, x86_sib_t.mk.injEq] at h
    omega

/-! ## The return classifier -/

/-- Claim C10: the return predicate holds exactly when the first unprefixed byte
is 0xC3, 0xC2, 0xCB or 0xCA, and two instructions whose first unprefixed bytes
agree get the same answer, whatever their flags, lengths and later bytes. -/
theorem return_instruction_opcodes (mem : Mem) (ins : x86_instruction) :
    (x86_is_return_instruction mem ins = true ↔
      (load8 mem ins.unprefixed = 0xc3 ∨ load8 mem ins.unprefixed = 0xc2 ∨
        load8 mem ins.unprefixed = 0xcb ∨ load8 mem ins.unprefixed = 0xca)) ∧
    (∀ (mem' : Mem) (ins' : x86_instruction),
      load8 mem' ins'.unprefixed = load8 mem ins.unprefixed →
      x86_is_return_instruction mem' ins' = x86_is_return_instruction mem ins) := by
  constructor
  · unfold x86_is_return_instruction
    split <;> simp_all
  · intro mem' ins' h
    simp only [x86_is_return_instruction, h]

/-- Instances of C10: the byte 0xC2 is a return under differing flags, lengths and
following bytes, and the syscall bytes 0F 05 are not. -/
theorem return_instruction_opcodes_witness :
    x86_is_return_instruction (bytesAt 0 [0x48, 0xc2, 0x08, 0x00])
        ⟨1, 4, { x86_ins_prefixes.zero with has_w := true, has_any_rex := true }⟩
      = x86_is_return_instruction (bytesAt 0 [0xc2, 0xff, 0xff]) ⟨0, 3, x86_ins_prefixes.zero⟩ ∧
    x86_is_return_instruction (bytesAt 0 [0xc2, 0xff, 0xff]) ⟨0, 3, x86_ins_prefixes.zero⟩
      = true ∧
    x86_is_return_instruction (bytesAt 0 [0x0f, 0x05]) ⟨0, 2, x86_ins_prefixes.zero⟩ = false :=
  ⟨(return_instruction_opcodes (bytesAt 0 [0xc2, 0xff, 0xff]) ⟨0, 3, x86_ins_prefixes.zero⟩).2
      (bytesAt 0 [0x48, 0xc2, 0x08, 0x00])
      ⟨1, 4, { x86_ins_prefixes.zero with has_w := true, has_any_rex := true }⟩ (by decide),
   by decide, by decide⟩

/-! ## The syscall bridge -/

/-- Claim C11: for every seven-slot frame `d` and every handler,
`thread_receive_syscall` applies the handler once, to the current thread's
state, the values `d[0]`, ..., `d[6]` in that order and a null extra argument;
the frame it leaves has seven slots, slot 0 holds the handler's result, slots
1..6 hold their input values, and the runtime state it leaves is the one that
single handler call returned. -/
theorem thread_receive_syscall_frame {σ τ : Type} (get_thread_storage : σ → τ × σ)
    (handle_syscall : σ → τ → Int → Int → Int → Int → Int → Int → Int → Nat → Int × σ)
    (w : σ) (d : List Int) (hd : d.length = 7) :
    (thread_receive_syscall get_thread_storage handle_syscall w d).1.length = 7 ∧
    (thread_receive_syscall get_thread_storage handle_syscall w d).1.getD 0 0 =
      (handle_syscall (get_thread_storage w).2 (get_thread_storage w).1
        (d.getD 0 0) (d.getD 1 0) (d.getD 2 0) (d.getD 3 0) (d.getD 4 0) (d.getD 5 0)
        (d.getD 6 0) 0).1 ∧
    (∀ i, 1 ≤ i → i < 7 →
      (thread_receive_syscall get_thread_storage handle_syscall w d).1.getD i 0 = d.getD i 0) ∧
    (thread_receive_syscall get_thread_storage handle_syscall w d).2 =
      (handle_syscall (get_thread_storage w).2 (get_thread_storage w).1
        (d.getD 0 0) (d.getD 1 0) (d.getD 2 0) (d.getD 3 0) (d.getD 4 0) (d.getD 5 0)
        (d.getD 6 0) 0).2 := by
  obtain ⟨d0, d1, d2, d3, d4, d5, d6, rfl⟩ :
      ∃ d0 d1 d2 d3 d4 d5 d6, d = [d0, d1, d2, d3, d4, d5, d6] := by
    match d, hd with
    | [d0, d1, d2, d3, d4, d5, d6], _ => exact ⟨d0, d1, d2, d3, d4, d5, d6, rfl⟩
  refine ⟨rfl, rfl, ?_, rfl⟩
  intro i h1 h7
  interval_cases i <;> rfl

/-- Instance of C11: the frame 60, 1, 2, 3, 0, 0, 0 with a handler that returns 0
and logs its arguments becomes 0, 1, 2, 3, 0, 0, 0, and the log holds the one
call with thread state 7, the seven input values and the null pointer. -/
theorem thread_receive_syscall_frame_witness :
    thread_receive_syscall (fun (w : List (List Int)) => ((7 : Nat), w))
        (fun w t a0 a1 a2 a3 a4 a5 a6 extra =>
          (0, w ++ [[(t : Int), a0, a1, a2, a3, a4, a5, a6, (extra : Int)]]))
        [] [60, 1, 2, 3, 0, 0, 0] =
      ([0, 1, 2, 3, 0, 0, 0], [[7, 60, 1, 2, 3, 0, 0, 0, 0]]) ∧
    (thread_receive_syscall (fun (w : List (List Int)) => ((7 : Nat), w))
        (fun w t a0 a1 a2 a3 a4 a5 a6 extra =>
          (0, w ++ [[(t : Int), a0, a1, a2, a3, a4, a5, a6, (extra : Int)]]))
        [] [60, 1, 2, 3, 0, 0, 0]).1.length = 7 :=
  ⟨by decide,
   (thread_receive_syscall_frame (fun (w : List (List Int)) => ((7 : Nat), w))
      (fun w t a0 a1 a2 a3 a4 a5 a6 extra =>
        (0, w ++ [[(t : Int), a0, a1, a2, a3, a4, a5, a6, (extra : Int)]]))
      [] [60, 1, 2, 3, 0, 0, 0] rfl).1⟩

/-! ### General facts about one pass of the loop -/

/-- One pass depends on memory only through the byte under the cursor. -/
theorem scan_body_congr (mem mem' : Mem) (s : Scan) (h : load8 mem' s.ins = load8 mem s.ins) :
    scan_body mem' s = scan_body mem s := by
  simp only [scan_body, h]

set_option maxHeartbeats 2000000 in
/-- The hint branches are shadowed: removing them changes no pass. -/
theorem scan_body_no_hints_eq (mem : Mem) (s : Scan) :
    scan_body_no_hints mem s = scan_body mem s := by
  have hv := load8_lt mem s.ins
  simp only [scan_body_no_hints, scan_body]
  generalize load8 mem s.ins = v at hv
  interval_cases v <;> simp +decide

set_option maxHeartbeats 2000000 in
/-- A pass that reaches the shared increment moves the cursor forward by one to
three bytes, leaves the address-size and notrack flags alone, and was not
looking at the byte 0x67. -/
theorem scan_body_next_facts (mem : Mem) (s s' : Scan) (h : scan_body mem s = .next s') :
    s.ins + 1 ≤ s'.ins ∧ s'.ins ≤ s.ins + 3 ∧
    s'.result.has_address_size_override = s.result.has_address_size_override ∧
    s'.result.has_notrack = s.result.has_notrack ∧
    load8 mem s.ins ≠ 0x67 := by
  have hv := load8_lt mem s.ins
  simp only [scan_body] at h
  generalize load8 mem s.ins = v at hv h
  interval_cases v <;> simp +decide at h ⊢ <;> subst h <;> simp

set_option maxHeartbeats 2000000 in
/-- A pass that leaves by `break` either saw 0x67, set the address-size flag and
kept the cursor, or saw a byte outside the prefix set and changed nothing. -/
theorem scan_body_brk_facts (mem : Mem) (s s' : Scan) (h : scan_body mem s = .brk s') :
    (load8 mem s.ins = 0x67 ∧
      s' = ⟨s.ins, { s.result with has_address_size_override := true }⟩) ∨
    (is_prefix_byte (load8 mem s.ins) = false ∧ s' = s) := by
  have hv := load8_lt mem s.ins
  simp only [scan_body] at h
  generalize load8 mem s.ins = v at hv h
  interval_cases v <;> simp +decide at h ⊢ <;> exact h.symm

set_option maxHeartbeats 2000000 in
/-- A pass over a byte outside 0x40..0x4F leaves the five REX flags alone. -/
theorem scan_body_rex_frame (mem : Mem) (s : Scan)
    (h : ¬ (0x40 ≤ load8 mem s.ins ∧ load8 mem s.ins ≤ 0x4f)) :
    (scan_body mem s).scan.result.rex_flags = s.result.rex_flags := by
  have hv := load8_lt mem s.ins
  simp only [scan_body]
  generalize load8 mem s.ins = v at hv h
  interval_cases v <;> simp +decide at h ⊢ <;> rfl

/-! ### General facts about the loop -/

theorem scan_loop_consumed_le (mem : Mem) (n : Nat) (s : Scan) :
    scan_loop_consumed mem n s ≤ n := by
  induction n generalizing s with
  | zero => simp [scan_loop_consumed]
  | succ n ih =>
    cases hb : scan_body mem s with
    | next s' =>
      have := ih s'
      simp only [scan_loop_consumed, hb]
      omega
    | brk s' => simp [scan_loop_consumed, hb]

theorem scan_loop_reads_length_le (mem : Mem) (n : Nat) (s : Scan) :
    (scan_loop_reads mem n s).length ≤ n := by
  induction n generalizing s with
  | zero => simp [scan_loop_reads]
  | succ n ih =>
    cases hb : scan_body mem s with
    | next s' =>
      have := ih s'
      simp only [scan_loop_reads, hb, List.length_cons]
      omega
    | brk s' => simp [scan_loop_reads, hb]

/-- Every byte the loop consumes moves the cursor by at least one. -/
theorem scan_loop_consumed_le_advance (mem : Mem) (n : Nat) (s : Scan) :
    s.ins + scan_loop_consumed mem n s ≤ (scan_loop mem n s).ins := by
  induction n generalizing s with
  | zero => simp [scan_loop_consumed, scan_loop]
  | succ n ih =>
    cases hb : scan_body mem s with
    | next s' =>
      have h1 := (scan_body_next_facts mem s s' hb).1
      have h2 := ih s'
      simp only [scan_loop_consumed, scan_loop, hb]
      omega
    | brk s' =>
      rcases scan_body_brk_facts mem s s' hb with ⟨_, rfl⟩ | ⟨_, rfl⟩ <;>
        simp [scan_loop_consumed, scan_loop, hb]

/-- The cursor never moves backwards and gains at most three bytes per pass. -/
theorem scan_loop_ins_bounds (mem : Mem) (n : Nat) (s : Scan) :
    s.ins ≤ (scan_loop mem n s).ins ∧ (scan_loop mem n s).ins ≤ s.ins + 3 * n := by
  induction n generalizing s with
  | zero => simp [scan_loop]
  | succ n ih =>
    cases hb : scan_body mem s with
    | next s' =>
      have h1 := scan_body_next_facts mem s s' hb
      have h2 := ih s'
      simp only [scan_loop, hb]
      omega
    | brk s' =>
      rcases scan_body_brk_facts mem s s' hb with ⟨_, rfl⟩ | ⟨_, rfl⟩ <;>
        simp only [scan_loop, hb] <;> omega

/-- Every address the loop loads from lies between the cursor it starts at and
three bytes per earlier pass beyond it. -/
theorem scan_loop_reads_bounds (mem : Mem) (n : Nat) (s : Scan) :
    ∀ a ∈ scan_loop_reads mem n s, s.ins ≤ a ∧ a + 3 ≤ s.ins + 3 * n := by
  induction n generalizing s with
  | zero => simp [scan_loop_reads]
  | succ n ih =>
    intro a ha
    cases hb : scan_body mem s with
    | next s' =>
      have h1 := scan_body_next_facts mem s s' hb
      simp only [scan_loop_reads, hb, List.mem_cons] at ha
      rcases ha with rfl | ha
      · omega
      · have := ih s' a ha
        omega
    | brk s' =>
      simp only [scan_loop_reads, hb, List.mem_cons, List.not_mem_nil, or_false] at ha
      omega

theorem scan_notrack_ins (mem : Mem) (A : Nat) :
    (scan_notrack mem A).ins = A + (if load8 mem A = 0x3e then 1 else 0) := by
  unfold scan_notrack
  split <;> rfl

/-! ## The bound on consumed prefix bytes -/

/-- The instrumented run is the loop itself with its counter beside it. -/
theorem scan_loop_counted_eq (mem : Mem) (n : Nat) (s : Scan) :
    scan_loop_counted mem n s = (scan_loop mem n s, scan_loop_consumed mem n s) := by
  induction n generalizing s with
  | zero => rfl
  | succ n ih =>
    cases hb : scan_body mem s with
    | next s' => simp only [scan_loop_counted, scan_loop, scan_loop_consumed, hb, ih s']
    | brk s' => simp only [scan_loop_counted, scan_loop, scan_loop_consumed, hb]

/-- The cursor gains at most three bytes per byte the loop consumes, and nothing
otherwise. -/
theorem scan_loop_advance_le (mem : Mem) (n : Nat) (s : Scan) :
    (scan_loop mem n s).ins ≤ s.ins + 3 * scan_loop_consumed mem n s := by
  induction n generalizing s with
  | zero => simp [scan_loop_consumed, scan_loop]
  | succ n ih =>
    cases hb : scan_body mem s with
    | next s' =>
      have h1 := scan_body_next_facts mem s s' hb
      have h2 := ih s'
      simp only [scan_loop_consumed, scan_loop, hb]
      omega
    | brk s' =>
      rcases scan_body_brk_facts mem s s' hb with ⟨_, rfl⟩ | ⟨_, rfl⟩ <;>
        simp [scan_loop_consumed, scan_loop, hb]

/-- An operand-size byte sets its flag and moves the cursor by one. -/
theorem scan_body_opsize (mem : Mem) (s : Scan) (h : load8 mem s.ins = 0x66) :
    scan_body mem s = .next ⟨s.ins + 1, { s.result with has_operand_size_override := true }⟩ := by
  simp +decide [scan_body, h]

/-- Over a run of operand-size bytes at least as long as the passes left, the
loop uses up all its passes and stops one byte per pass further on, whatever
byte stands there. -/
theorem scan_loop_opsize_run (mem : Mem) (n : Nat) (s : Scan)
    (h : ∀ k, k < n + 1 → load8 mem (s.ins + k) = 0x66) :
    scan_loop mem (n + 1) s =
      ⟨s.ins + (n + 1), { s.result with has_operand_size_override := true }⟩ := by
  induction n generalizing s with
  | zero =>
    rw [scan_loop_next mem 0 s _ (scan_body_opsize mem s (h 0 (by omega)))]
    rfl
  | succ n ih =>
    rw [scan_loop_next mem (n + 1) s _ (scan_body_opsize mem s (h 0 (by omega)))]
    rw [ih ⟨s.ins + 1, { s.result with has_operand_size_override := true }⟩
      (fun k hk => by
        have := h (k + 1) (by omega)
        rwa [show s.ins + (k + 1) = s.ins + 1 + k by omega] at this)]
    simp only [Scan.mk.injEq, and_true]
    omega

/-- Claim C12, amended: the decoder's record and final cursor are those of one
instrumented run of its sixteen-pass loop, whose counter is the number of prefix
bytes recognised and consumed.  That number is at most 17 (at most 16 when the
first byte is not 0x3E, the loop alone consuming at most 16), and the final
cursor lies between one and three bytes per consumed byte past the start.  The
bound is a stop of the decoder itself: when sixteen 0x66 bytes stand at the
start the cursor ends at offset 16, and when 3E and sixteen 0x66 bytes stand
there it ends at offset 17, in both cases whatever bytes follow. -/
theorem prefix_bytes_consumed_bound (mem : Mem) (A : Nat) :
    (x86_decode_ins_prefixes_counted mem A).1 = x86_decode_ins_prefixes mem A ∧
    (x86_decode_ins_prefixes_counted mem A).2 = prefix_bytes_consumed mem A ∧
    prefix_bytes_consumed mem A ≤ 17 ∧
    (load8 mem A ≠ 0x3e → prefix_bytes_consumed mem A ≤ 16) ∧
    scan_loop_consumed mem 16 (scan_notrack mem A) ≤ 16 ∧
    (scan_loop_reads mem 16 (scan_notrack mem A)).length ≤ 16 ∧
    A + prefix_bytes_consumed mem A ≤ (x86_decode_ins_prefixes mem A).2 ∧
    (x86_decode_ins_prefixes mem A).2 ≤ A + 3 * prefix_bytes_consumed mem A ∧
    ((∀ k, k < 16 → load8 mem (A + k) = 0x66) →
      x86_decode_ins_prefixes mem A =
        ({ x86_ins_prefixes.zero with has_operand_size_override := true }, A + 16)) ∧
    (load8 mem A = 0x3e → (∀ k, k < 16 → load8 mem (A + 1 + k) = 0x66) →
      x86_decode_ins_prefixes mem A =
        ({ x86_ins_prefixes.zero with
            has_notrack := true, has_operand_size_override := true }, A + 17)) := by
  have h1 := scan_loop_consumed_le mem 16 (scan_notrack mem A)
  have h2 := scan_loop_consumed_le_advance mem 16 (scan_notrack mem A)
  have h3 := scan_notrack_ins mem A
  have h4 := scan_loop_advance_le mem 16 (scan_notrack mem A)
  refine ⟨?_, ?_, ?_, ?_, h1, scan_loop_reads_length_le mem 16 _, ?_, ?_, ?_, ?_⟩
  · simp only [x86_decode_ins_prefixes_counted, x86_decode_ins_prefixes, scan_loop_counted_eq]
  · simp only [x86_decode_ins_prefixes_counted, prefix_bytes_consumed, scan_loop_counted_eq]
  · unfold prefix_bytes_consumed
    split <;> omega
  · intro h
    simp only [prefix_bytes_consumed, h, if_false]
    omega
  · simp only [prefix_bytes_consumed, x86_decode_ins_prefixes]
    by_cases h : load8 mem A = 0x3e
    · simp only [h, if_true] at h3 ⊢
      omega
    · simp only [h, if_false] at h3 ⊢
      omega
  · simp only [prefix_bytes_consumed, x86_decode_ins_prefixes]
    by_cases h : load8 mem A = 0x3e
    · simp only [h, if_true] at h3 ⊢
      omega
    · simp only [h, if_false] at h3 ⊢
      omega
  · intro h
    have h0 := h 0 (by omega)
    rw [Nat.add_zero] at h0
    unfold x86_decode_ins_prefixes
    rw [scan_notrack_other mem A (by omega),
      scan_loop_opsize_run mem 15 ⟨A, x86_ins_prefixes.zero⟩ h]
  · intro h0 h
    have hs : scan_notrack mem A =
        ⟨A + 1, { x86_ins_prefixes.zero with has_notrack := true }⟩ := by
      simp only [scan_notrack, h0, if_true]
    unfold x86_decode_ins_prefixes
    rw [hs, scan_loop_opsize_run mem 15
      ⟨A + 1, { x86_ins_prefixes.zero with has_notrack := true }⟩ h]

/-- Counterexample to C12 as stated: on 3E followed by sixteen 0x66 bytes and the
opcode 0x90 the decoder consumes 17 prefix bytes, more than 16, and leaves the
cursor at offset 17. -/
theorem prefix_bytes_consumed_seventeen :
    prefix_bytes_consumed
        (bytesAt 0 [0x3e, 0x66, 0x66, 0x66, 0x66, 0x66, 0x66, 0x66, 0x66,
          0x66, 0x66, 0x66, 0x66, 0x66, 0x66, 0x66, 0x66, 0x90]) 0 = 17 ∧
    ¬ (prefix_bytes_consumed
        (bytesAt 0 [0x3e, 0x66, 0x66, 0x66, 0x66, 0x66, 0x66, 0x66, 0x66,
          0x66, 0x66, 0x66, 0x66, 0x66, 0x66, 0x66, 0x66, 0x90]) 0 ≤ 16) ∧
    x86_decode_ins_prefixes
        (bytesAt 0 [0x3e, 0x66, 0x66, 0x66, 0x66, 0x66, 0x66, 0x66, 0x66,
          0x66, 0x66, 0x66, 0x66, 0x66, 0x66, 0x66, 0x66, 0x90]) 0 =
      ({ x86_ins_prefixes.zero with has_notrack := true, has_operand_size_override := true },
        17) := by
  decide

/-! ## The unified jump decode -/

/-- A byte that encodes the signed 8-bit value `d` in two's complement is read
back as `d`. -/
theorem sign_extend8_encode (d : Int) (hlo : -128 ≤ d) (hhi : d < 128) :
    sign_extend8 (d % 256).toNat = d := by
  unfold sign_extend8
  split <;> omega

/-- Four bytes that encode the signed 32-bit value `d` in little-endian two's
complement are read back as `d`. -/
theorem read_int32_encode (mem : Mem) (p : Nat) (d : Int)
    (hlo : -2147483648 ≤ d) (hhi : d < 2147483648)
    (h0 : load8 mem p = (d % 4294967296).toNat % 256)
    (h1 : load8 mem (p + 1) = (d % 4294967296).toNat / 256 % 256)
    (h2 : load8 mem (p + 2) = (d % 4294967296).toNat / 65536 % 256)
    (h3 : load8 mem (p + 3) = (d % 4294967296).toNat / 16777216 % 256) :
    read_int32 mem p = d := by
  simp only [read_int32, h0, h1, h2, h3]
  split <;> omega

/-- Claim C13: in the jump decode modelled from the spec a direct target is the
address of the next instruction plus the sign-extended displacement.  With the
opcode at address A: EB followed by the two's-complement byte of any signed
8-bit `d` is unconditional-direct with target A + 2 + d, so EB 05 gives A + 7
and a negative displacement jumps backwards; 0F 84 followed by the four-byte
little-endian two's-complement encoding of any signed 32-bit `d` is
conditional-direct with target A + 6 + d.  The same holds of the other direct
forms: a short conditional jump 70..7F gives A + 2 + d and the near jump E9
gives A + 5 + d. -/
theorem jump_decode_direct_targets (mem : Mem) (ins : x86_instruction) (A : Nat)
    (hA : ins.unprefixed = A) :
    (∀ d : Int, -128 ≤ d → d < 128 →
      load8 mem A = 0xeb → load8 mem (A + 1) = (d % 256).toNat →
      x86_decode_jump_instruction mem ins =
        (.unconditional_direct, some ((A : Int) + 2 + d)) ∧
      (ins.length = 2 →
        x86_decode_jump_instruction mem ins =
          (.unconditional_direct, some (x86_next_instruction A ins + d)))) ∧
    (load8 mem A = 0xeb → load8 mem (A + 1) = 0x05 →
      x86_decode_jump_instruction mem ins = (.unconditional_direct, some ((A : Int) + 7))) ∧
    (∀ d : Int, -2147483648 ≤ d → d < 2147483648 →
      load8 mem A = 0x0f → load8 mem (A + 1) = 0x84 →
      load8 mem (A + 2) = (d % 4294967296).toNat % 256 →
      load8 mem (A + 3) = (d % 4294967296).toNat / 256 % 256 →
      load8 mem (A + 4) = (d % 4294967296).toNat / 65536 % 256 →
      load8 mem (A + 5) = (d % 4294967296).toNat / 16777216 % 256 →
      x86_decode_jump_instruction mem ins = (.conditional_direct, some ((A : Int) + 6 + d)) ∧
      (ins.length = 6 →
        x86_decode_jump_instruction mem ins =
          (.conditional_direct, some (x86_next_instruction A ins + d)))) ∧
    (∀ d : Int, -128 ≤ d → d < 128 →
      0x70 ≤ load8 mem A → load8 mem A ≤ 0x7f → load8 mem (A + 1) = (d % 256).toNat →
      x86_decode_jump_instruction mem ins =
        (.conditional_direct, some ((A : Int) + 2 + d))) ∧
    (∀ d : Int, -2147483648 ≤ d → d < 2147483648 →
      load8 mem A = 0xe9 →
      load8 mem (A + 1) = (d % 4294967296).toNat % 256 →
      load8 mem (A + 2) = (d % 4294967296).toNat / 256 % 256 →
      load8 mem (A + 3) = (d % 4294967296).toNat / 65536 % 256 →
      load8 mem (A + 4) = (d % 4294967296).toNat / 16777216 % 256 →
      x86_decode_jump_instruction mem ins =
        (.unconditional_direct, some ((A : Int) + 5 + d))) := by
  subst hA
  have short : ∀ d : Int, -128 ≤ d → d < 128 →
      load8 mem ins.unprefixed = 0xeb → load8 mem (ins.unprefixed + 1) = (d % 256).toNat →
      x86_decode_jump_instruction mem ins =
        (.unconditional_direct, some ((ins.unprefixed : Int) + 2 + d)) := by
    intro d hlo hhi h0 h1
    simp only [x86_decode_jump_instruction, h0, h1, if_true, sign_extend8_encode d hlo hhi]
  refine ⟨?_, ?_, ?_, ?_, ?_⟩
  · intro d hlo hhi h0 h1
    have e := short d hlo hhi h0 h1
    refine ⟨e, ?_⟩
    intro hl
    rw [e, x86_next_instruction, hl]
  · intro h0 h1
    have e := short 5 (by decide) (by decide) h0 (by rw [h1]; decide)
    rw [e]
    have : (ins.unprefixed : Int) + 2 + 5 = (ins.unprefixed : Int) + 7 := by omega
    rw [this]
  · intro d hlo hhi h0 h1 h2 h3 h4 h5
    have hr : read_int32 mem (ins.unprefixed + 2) = d :=
      read_int32_encode mem _ d hlo hhi h2
        (by rwa [show ins.unprefixed + 2 + 1 = ins.unprefixed + 3 by omega])
        (by rwa [show ins.unprefixed + 2 + 2 = ins.unprefixed + 4 by omega])
        (by rwa [show ins.unprefixed + 2 + 3 = ins.unprefixed + 5 by omega])
    have e : x86_decode_jump_instruction mem ins =
        (.conditional_direct, some ((ins.unprefixed : Int) + 6 + d)) := by
      simp only [x86_decode_jump_instruction, h0, h1, hr]
      norm_num
    refine ⟨e, ?_⟩
    intro hl
    rw [e, x86_next_instruction, hl]
  · intro d hlo hhi h70 h7f h1
    have n1 : load8 mem ins.unprefixed ≠ 0xeb := by omega
    have n2 : load8 mem ins.unprefixed ≠ 0xe9 := by omega
    simp only [x86_decode_jump_instruction, n1, n2, if_false, h70, h7f, and_self, if_true, h1,
      sign_extend8_encode d hlo hhi]
  · intro d hlo hhi h0 h1 h2 h3 h4
    have hr : read_int32 mem (ins.unprefixed + 1) = d :=
      read_int32_encode mem _ d hlo hhi h1
        (by rwa [show ins.unprefixed + 1 + 1 = ins.unprefixed + 2 by omega])
        (by rwa [show ins.unprefixed + 1 + 2 = ins.unprefixed + 3 by omega])
        (by rwa [show ins.unprefixed + 1 + 3 = ins.unprefixed + 4 by omega])
    simp only [x86_decode_jump_instruction, h0, hr]
    norm_num

/-- Instances of C13 at address 0x1000: EB 05 jumps forwards to 0x1007, EB FE
(displacement -2) jumps back to 0x1000, and 0F 84 with the displacement bytes
FA FF FF FF (displacement -6) jumps back to 0x1000. -/
theorem jump_decode_direct_targets_witness :
    x86_decode_jump_instruction (bytesAt 0x1000 [0xeb, 0x05])
        ⟨0x1000, 2, x86_ins_prefixes.zero⟩ = (.unconditional_direct, some 0x1007) ∧
    x86_decode_jump_instruction (bytesAt 0x1000 [0xeb, 0xfe])
        ⟨0x1000, 2, x86_ins_prefixes.zero⟩ = (.unconditional_direct, some 0x1000) ∧
    x86_decode_jump_instruction (bytesAt 0x1000 [0x0f, 0x84, 0xfa, 0xff, 0xff, 0xff])
        ⟨0x1000, 6, x86_ins_prefixes.zero⟩ = (.conditional_direct, some 0x1000) :=
  ⟨(jump_decode_direct_targets (bytesAt 0x1000 [0xeb, 0x05])
        ⟨0x1000, 2, x86_ins_prefixes.zero⟩ 0x1000 rfl).2.1 (by decide) (by decide),
   (((jump_decode_direct_targets (bytesAt 0x1000 [0xeb, 0xfe])
        ⟨0x1000, 2, x86_ins_prefixes.zero⟩ 0x1000 rfl).1 (-2) (by decide) (by decide)
        (by decide) (by decide)).1).trans (by decide),
   (((jump_decode_direct_targets (bytesAt 0x1000 [0x0f, 0x84, 0xfa, 0xff, 0xff, 0xff])
        ⟨0x1000, 6, x86_ins_prefixes.zero⟩ 0x1000 rfl).2.2.1 (-6) (by decide) (by decide)
        (by decide) (by decide) (by decide) (by decide) (by decide) (by decide)).1).trans
      (by decide)⟩

/-! ## The address-size override stops the scan -/

/-- Once the loop loads the byte 0x67 at address `p`, it ends there with the
address-size flag set, and no byte beyond `p` has any influence. -/
theorem scan_loop_addr_override (mem : Mem) (n : Nat) (s : Scan) (p : Nat)
    (hp : p ∈ scan_loop_reads mem n s) (h67 : load8 mem p = 0x67) :
    (scan_loop mem n s).ins = p ∧
    (scan_loop mem n s).result.has_address_size_override = true ∧
    ∀ mem' : Mem, (∀ a, s.ins ≤ a → a ≤ p → load8 mem' a = load8 mem a) →
      scan_loop mem' n s = scan_loop mem n s := by
  induction n generalizing s with
  | zero => simp [scan_loop_reads] at hp
  | succ n ih =>
    have hge := (scan_loop_reads_bounds mem (n + 1) s p hp).1
    cases hb : scan_body mem s with
    | next s' =>
      have hf := scan_body_next_facts mem s s' hb
      simp only [scan_loop_reads, hb, List.mem_cons] at hp
      rcases hp with rfl | hp
      · exact absurd h67 hf.2.2.2.2
      · obtain ⟨i1, i2, i3⟩ := ih s' hp
        refine ⟨?_, ?_, ?_⟩
        · simpa only [scan_loop, hb] using i1
        · simpa only [scan_loop, hb] using i2
        · intro mem' hag
          have hb' : scan_body mem' s = .next s' := by
            rw [scan_body_congr mem mem' s (hag s.ins (Nat.le_refl _) hge), hb]
          simp only [scan_loop, hb, hb']
          exact i3 mem' (fun a ha1 ha2 => hag a (by omega) ha2)
    | brk s' =>
      simp only [scan_loop_reads, hb, List.mem_cons, List.not_mem_nil, or_false] at hp
      subst hp
      have hb2 := scan_body_addr_override mem s h67
      refine ⟨?_, ?_, ?_⟩
      · simp only [scan_loop, hb2]
      · simp only [scan_loop, hb2]
      · intro mem' hag
        have hb' : scan_body mem' s = scan_body mem s :=
          scan_body_congr mem mem' s (hag s.ins (Nat.le_refl _) (Nat.le_refl _))
        simp only [scan_loop, hb', hb]

/-- Claim C14: whenever the decoder loads a byte 0x67 at an address `p`, the scan
stops at once: the address-size flag is set, and the returned flags and final
cursor are the same for every memory that agrees with this one from the start
address up to `p`, whatever bytes follow that 0x67.  When the first byte is
0x67 the returned record has only the address-size flag set, so `has_lock` is
clear even if the next byte is F0. -/
theorem addr_override_stops_scan (mem : Mem) (A p : Nat)
    (hp : p ∈ x86_decode_ins_prefixes_reads mem A) (h67 : load8 mem p = 0x67) :
    (x86_decode_ins_prefixes mem A).1.has_address_size_override = true ∧
    (∀ mem' : Mem, (∀ a, A ≤ a → a ≤ p → load8 mem' a = load8 mem a) →
      x86_decode_ins_prefixes mem' A = x86_decode_ins_prefixes mem A) ∧
    (p = A →
      (x86_decode_ins_prefixes mem A).1 =
        { x86_ins_prefixes.zero with has_address_size_override := true } ∧
      (x86_decode_ins_prefixes mem A).1.has_lock = false) := by
  have hin : p ∈ scan_loop_reads mem 16 (scan_notrack mem A) := by
    simp only [x86_decode_ins_prefixes_reads, List.mem_cons] at hp
    rcases hp with rfl | hp
    · rw [scan_notrack_other mem p (by omega)]
      simp [scan_loop_reads]
    · exact hp
  have hge := (scan_loop_reads_bounds mem 16 _ p hin).1
  have hn := scan_notrack_ins mem A
  have hAp : A ≤ p := by omega
  obtain ⟨_, i2, i3⟩ := scan_loop_addr_override mem 16 _ p hin h67
  refine ⟨i2, ?_, ?_⟩
  · intro mem' hag
    have hnt : scan_notrack mem' A = scan_notrack mem A := by
      simp only [scan_notrack, hag A (Nat.le_refl _) hAp]
    simp only [x86_decode_ins_prefixes, hnt]
    rw [i3 mem' (fun a ha1 ha2 => hag a (by omega) ha2)]
  · intro hpa
    subst hpa
    have e : x86_decode_ins_prefixes mem p =
        ({ x86_ins_prefixes.zero with has_address_size_override := true }, p) := by
      unfold x86_decode_ins_prefixes
      rw [scan_notrack_other mem p (by omega),
        scan_loop_brk mem 15 _ _ (scan_body_addr_override mem ⟨p, x86_ins_prefixes.zero⟩ h67)]
    exact ⟨by rw [e], by rw [e]; rfl⟩

/-- Instance of C14 on the bytes 67 F0 90: the lock byte after the override is
never looked at. -/
theorem addr_override_stops_scan_witness :
    (x86_decode_ins_prefixes (bytesAt 0 [0x67, 0xf0, 0x90]) 0).1 =
      { x86_ins_prefixes.zero with has_address_size_override := true } ∧
    (x86_decode_ins_prefixes (bytesAt 0 [0x67, 0xf0, 0x90]) 0).1.has_lock = false :=
  (addr_override_stops_scan (bytesAt 0 [0x67, 0xf0, 0x90]) 0 0 (by decide) (by decide)).2.2 rfl

/-! ## VEX and XOP data bytes -/

/-- The three-byte VEX introducer sets `has_vex` and moves the cursor by three. -/
theorem scan_body_vex3 (mem : Mem) (s : Scan) (h : load8 mem s.ins = 0xc4) :
    scan_body mem s = .next ⟨s.ins + 1 + 1 + 1, { s.result with has_vex := true }⟩ := by
  simp +decide [scan_body, h]

/-- The two-byte VEX introducer sets `has_vex` and moves the cursor by two. -/
theorem scan_body_vex2 (mem : Mem) (s : Scan) (h : load8 mem s.ins = 0xc5) :
    scan_body mem s = .next ⟨s.ins + 1 + 1, { s.result with has_vex := true }⟩ := by
  simp +decide [scan_body, h]

/-- A later 0x3E byte is a segment override. -/
theorem scan_body_ds (mem : Mem) (s : Scan) (h : load8 mem s.ins = 0x3e) :
    scan_body mem s = .next ⟨s.ins + 1, { s.result with has_segment_override := true }⟩ := by
  simp +decide [scan_body, h]

/-- Claim C15: the data bytes after a VEX or XOP introducer are skipped without
being looked at.  With a byte outside the prefix set after them, C5 and one data
byte give exactly `has_vex` and the cursor at offset 2; C4 and two data bytes
give exactly `has_vex` and the cursor at offset 3; 8F and two data bytes give no
flag and the cursor at offset 3.  The data bytes are unconstrained, so the
result is the same for each of their values. -/
theorem vex_xop_data_bytes_skipped (mem : Mem) (A : Nat) :
    (load8 mem A = 0xc5 → is_prefix_byte (load8 mem (A + 2)) = false →
      x86_decode_ins_prefixes mem A = ({ x86_ins_prefixes.zero with has_vex := true }, A + 2)) ∧
    (load8 mem A = 0xc4 → is_prefix_byte (load8 mem (A + 3)) = false →
      x86_decode_ins_prefixes mem A = ({ x86_ins_prefixes.zero with has_vex := true }, A + 3)) ∧
    (load8 mem A = 0x8f → is_prefix_byte (load8 mem (A + 3)) = false →
      x86_decode_ins_prefixes mem A = (x86_ins_prefixes.zero, A + 3)) := by
  refine ⟨?_, ?_, ?_⟩
  · intro h0 hn
    unfold x86_decode_ins_prefixes
    rw [scan_notrack_other mem A (by omega),
      scan_loop_next mem 15 _ _ (scan_body_vex2 mem ⟨A, x86_ins_prefixes.zero⟩ h0),
      scan_loop_brk mem 14 _ _ (scan_body_other_byte mem ⟨A + 1 + 1, _⟩ hn)]
  · intro h0 hn
    unfold x86_decode_ins_prefixes
    rw [scan_notrack_other mem A (by omega),
      scan_loop_next mem 15 _ _ (scan_body_vex3 mem ⟨A, x86_ins_prefixes.zero⟩ h0),
      scan_loop_brk mem 14 _ _ (scan_body_other_byte mem ⟨A + 1 + 1 + 1, _⟩ hn)]
  · intro h0 hn
    unfold x86_decode_ins_prefixes
    rw [scan_notrack_other mem A (by omega),
      scan_loop_next mem 15 _ _ (scan_body_xop mem ⟨A, x86_ins_prefixes.zero⟩ h0),
      scan_loop_brk mem 14 _ _ (scan_body_other_byte mem ⟨A + 1 + 1 + 1, _⟩ hn)]

/-- Instances of C15: the data byte F3 after C5 does not set `has_rep`, the data
bytes 66 F0 after C4 set neither the operand-size nor the lock flag, and the
data bytes 48 67 after 8F set no flag. -/
theorem vex_xop_data_bytes_skipped_witness :
    x86_decode_ins_prefixes (bytesAt 0 [0xc5, 0xf3, 0x90]) 0 =
      ({ x86_ins_prefixes.zero with has_vex := true }, 2) ∧
    x86_decode_ins_prefixes (bytesAt 0 [0xc4, 0x66, 0xf0, 0x90]) 0 =
      ({ x86_ins_prefixes.zero with has_vex := true }, 3) ∧
    x86_decode_ins_prefixes (bytesAt 0 [0x8f, 0x48, 0x67, 0x90]) 0 =
      (x86_ins_prefixes.zero, 3) :=
  ⟨(vex_xop_data_bytes_skipped (bytesAt 0 [0xc5, 0xf3, 0x90]) 0).1 (by decide) (by decide),
   (vex_xop_data_bytes_skipped (bytesAt 0 [0xc4, 0x66, 0xf0, 0x90]) 0).2.1
      (by decide) (by decide),
   (vex_xop_data_bytes_skipped (bytesAt 0 [0x8f, 0x48, 0x67, 0x90]) 0).2.2
      (by decide) (by decide)⟩

/-! ## The notrack byte -/

/-- The loop never touches `has_notrack`. -/
theorem scan_loop_notrack (mem : Mem) (n : Nat) (s : Scan) :
    (scan_loop mem n s).result.has_notrack = s.result.has_notrack := by
  induction n generalizing s with
  | zero => rfl
  | succ n ih =>
    cases hb : scan_body mem s with
    | next s' =>
      simp only [scan_loop, hb]
      rw [ih s', (scan_body_next_facts mem s s' hb).2.2.2.1]
    | brk s' =>
      simp only [scan_loop, hb]
      rcases scan_body_brk_facts mem s s' hb with ⟨_, rfl⟩ | ⟨_, rfl⟩ <;> rfl

/-- Claim C16: `has_notrack` is set in the result exactly when the first byte is
0x3E.  A leading 3E followed by a byte outside the prefix set gives exactly
`has_notrack` with the cursor at offset 1; a 0x3E met by the loop at any cursor
sets `has_segment_override` and leaves `has_notrack` as it was; 3E 3E followed
by a byte outside the prefix set gives exactly `has_notrack` and
`has_segment_override` with the cursor at offset 2. -/
theorem notrack_only_leading (mem : Mem) (A : Nat) :
    ((x86_decode_ins_prefixes mem A).1.has_notrack = true ↔ load8 mem A = 0x3e) ∧
    (load8 mem A = 0x3e → is_prefix_byte (load8 mem (A + 1)) = false →
      x86_decode_ins_prefixes mem A =
        ({ x86_ins_prefixes.zero with has_notrack := true }, A + 1)) ∧
    (∀ s : Scan, load8 mem s.ins = 0x3e →
      scan_body mem s =
        .next ⟨s.ins + 1, { s.result with has_segment_override := true }⟩) ∧
    (load8 mem A = 0x3e → load8 mem (A + 1) = 0x3e →
      is_prefix_byte (load8 mem (A + 2)) = false →
      x86_decode_ins_prefixes mem A =
        ({ x86_ins_prefixes.zero with has_notrack := true, has_segment_override := true },
          A + 2)) := by
  refine ⟨?_, ?_, fun s h => scan_body_ds mem s h, ?_⟩
  · simp only [x86_decode_ins_prefixes, scan_loop_notrack]
    unfold scan_notrack
    split <;> simp_all [x86_ins_prefixes.zero]
  · intro h0 hn
    have hs : scan_notrack mem A =
        ⟨A + 1, { x86_ins_prefixes.zero with has_notrack := true }⟩ := by
      simp only [scan_notrack, h0, if_true]
    unfold x86_decode_ins_prefixes
    rw [hs, scan_loop_brk mem 15 _ _ (scan_body_other_byte mem ⟨A + 1, _⟩ hn)]
  · intro h0 h1 hn
    have hs : scan_notrack mem A =
        ⟨A + 1, { x86_ins_prefixes.zero with has_notrack := true }⟩ := by
      simp only [scan_notrack, h0, if_true]
    unfold x86_decode_ins_prefixes
    rw [hs, scan_loop_next mem 15 _ _
        (scan_body_ds mem ⟨A + 1, { x86_ins_prefixes.zero with has_notrack := true }⟩ h1),
      scan_loop_brk mem 14 _ _ (scan_body_other_byte mem ⟨A + 1 + 1, _⟩ hn)]

/-- Instances of C16: 3E 90, 3E 3E 90, and 66 3E 90 where the later 0x3E is a
segment override and `has_notrack` stays clear. -/
theorem notrack_only_leading_witness :
    x86_decode_ins_prefixes (bytesAt 0 [0x3e, 0x90]) 0 =
      ({ x86_ins_prefixes.zero with has_notrack := true }, 1) ∧
    x86_decode_ins_prefixes (bytesAt 0 [0x3e, 0x3e, 0x90]) 0 =
      ({ x86_ins_prefixes.zero with has_notrack := true, has_segment_override := true }, 2) ∧
    x86_decode_ins_prefixes (bytesAt 0 [0x66, 0x3e, 0x90]) 0 =
      ({ x86_ins_prefixes.zero with
          has_operand_size_override := true, has_segment_override := true }, 2) :=
  ⟨(notrack_only_leading (bytesAt 0 [0x3e, 0x90]) 0).2.1 (by decide) (by decide),
   (notrack_only_leading (bytesAt 0 [0x3e, 0x3e, 0x90]) 0).2.2.2
      (by decide) (by decide) (by decide),
   by decide⟩

/-! ## The hint branches are dead -/

theorem scan_loop_no_hints_eq (mem : Mem) (n : Nat) (s : Scan) :
    scan_loop_no_hints mem n s = scan_loop mem n s := by
  induction n generalizing s with
  | zero => rfl
  | succ n ih =>
    simp only [scan_loop_no_hints, scan_loop, scan_body_no_hints_eq]
    cases scan_body mem s with
    | next s' => exact ih s'
    | brk s' => rfl

/-- Claim C17: the prefix decoder with the two branch-hint branches removed
returns the same flags and the same final cursor as the original on every
memory and start address, and already each single pass of the loop is the
same, so the two branches never run. -/
theorem hint_branches_dead (mem : Mem) (A : Nat) :
    x86_decode_ins_prefixes_no_hints mem A = x86_decode_ins_prefixes mem A ∧
    ∀ s : Scan, scan_body_no_hints mem s = scan_body mem s := by
  refine ⟨?_, scan_body_no_hints_eq mem⟩
  simp only [x86_decode_ins_prefixes_no_hints, x86_decode_ins_prefixes, scan_loop_no_hints_eq]

/-! ## Registers encoded in the opcode byte -/

/-- Claim C18, amended: for an opcode value `v` and an opcode base `s` (both bytes)
the result is the integer `(v - s) + 8 * has_b`, without 8-bit wrap-around.  For
`s <= v <= s + 7` it lies in 0..15, its remainder modulo 8 is `v - s` and its
quotient by 8 is REX.B.  For `v < s` it is negative when REX.B is clear, and
with REX.B set it is negative exactly when `v + 8 < s`. -/
theorem opcode_register_index (v s : Nat) (rex : x86_ins_prefixes)
    (hv : v < 256) (hs : s < 256) :
    x86_read_opcode_register_index v s rex = (v : Int) - (s : Int) + 8 * (rex.has_b.toNat : Int) ∧
    (s ≤ v → v ≤ s + 7 →
      0 ≤ x86_read_opcode_register_index v s rex ∧
      x86_read_opcode_register_index v s rex ≤ 15 ∧
      x86_read_opcode_register_index v s rex % 8 = ((v - s : Nat) : Int) ∧
      x86_read_opcode_register_index v s rex / 8 = (rex.has_b.toNat : Int)) ∧
    (v < s → rex.has_b = false → x86_read_opcode_register_index v s rex < 0) ∧
    (v < s → rex.has_b = true →
      (x86_read_opcode_register_index v s rex < 0 ↔ v + 8 < s)) := by
  have e : x86_read_opcode_register_index v s rex =
      (v : Int) - (s : Int) + 8 * (rex.has_b.toNat : Int) := by
    simp only [x86_read_opcode_register_index, Nat.mod_eq_of_lt hv, Nat.mod_eq_of_lt hs,
      Nat.shiftLeft_eq]
    push_cast
    ring
  rw [e]
  refine ⟨rfl, ?_, ?_, ?_⟩
  · intro h1 h2
    cases rex.has_b <;> simp only [Bool.toNat_true, Bool.toNat_false] <;> omega
  · intro h1 h2
    simp only [h2, Bool.toNat_false]
    omega
  · intro h1 h2
    simp only [h2, Bool.toNat_true]
    omega

/-- Instance of C18: opcode 0x50 against the base 0x50 with REX.B set gives 8, and
opcode 0x57 without REX gives 7. -/
theorem opcode_register_index_witness :
    x86_read_opcode_register_index 0x50 0x50
      { x86_ins_prefixes.zero with has_b := true, has_any_rex := true } = 8 ∧
    x86_read_opcode_register_index 0x57 0x50 x86_ins_prefixes.zero = 7 :=
  ⟨(opcode_register_index 0x50 0x50
      { x86_ins_prefixes.zero with has_b := true, has_any_rex := true }
      (by decide) (by decide)).1.trans (by decide),
   by decide⟩

/-- Counterexample to C18 as stated: the opcode value 0x4F lies below the base 0x50,
yet with REX.B set the result is 7, which is not negative. -/
theorem opcode_register_index_below_base :
    (0x4f : Nat) < 0x50 ∧
    x86_read_opcode_register_index 0x4f 0x50
      { x86_ins_prefixes.zero with has_b := true, has_any_rex := true } = 7 ∧
    ¬ (x86_read_opcode_register_index 0x4f 0x50
      { x86_ins_prefixes.zero with has_b := true, has_any_rex := true } < 0) := by
  decide

/-! ## How far the cursor moves and what is read -/

/-- The loop depends on memory only through the bytes at the addresses it loads:
a memory that agrees there gives the same final state and the same loads. -/
theorem scan_loop_congr_reads (mem mem' : Mem) (n : Nat) (s : Scan)
    (h : ∀ a ∈ scan_loop_reads mem n s, load8 mem' a = load8 mem a) :
    scan_loop mem' n s = scan_loop mem n s ∧
    scan_loop_reads mem' n s = scan_loop_reads mem n s := by
  induction n generalizing s with
  | zero => exact ⟨rfl, rfl⟩
  | succ n ih =>
    have hb' : scan_body mem' s = scan_body mem s :=
      scan_body_congr mem mem' s (h s.ins (by simp [scan_loop_reads]))
    cases hb : scan_body mem s with
    | next s' =>
      rw [hb] at hb'
      have hin : ∀ a ∈ scan_loop_reads mem n s', load8 mem' a = load8 mem a := by
        intro a ha
        apply h
        simp only [scan_loop_reads, hb, List.mem_cons]
        exact Or.inr ha
      obtain ⟨i1, i2⟩ := ih s' hin
      simp only [scan_loop, scan_loop_reads, hb, hb', i1, i2, and_self]
    | brk s' =>
      rw [hb] at hb'
      simp only [scan_loop, scan_loop_reads, hb, hb', and_self]

/-- Claim C19: the decoder never moves the cursor backwards and advances it by at
most 49 bytes, and it reads no byte at an offset greater than 46 from the
start: every address it loads from lies at an offset between 0 and 46, its
record and final cursor are the same for every memory that agrees on the
addresses it loads from, and hence for every memory that agrees on offsets 0
to 46.  The bounds are attained on 3E followed by sixteen groups C4 00 00: the
cursor ends at offset 49 and offset 46 is loaded; and the byte at offset 46
does matter, since changing it alone after 3E and fifteen such groups changes
the result. -/
theorem cursor_and_read_bounds (mem : Mem) (A : Nat) :
    A ≤ (x86_decode_ins_prefixes mem A).2 ∧
    (x86_decode_ins_prefixes mem A).2 ≤ A + 49 ∧
    (∀ a ∈ x86_decode_ins_prefixes_reads mem A, A ≤ a ∧ a ≤ A + 46) ∧
    (∀ mem' : Mem, (∀ a ∈ x86_decode_ins_prefixes_reads mem A, load8 mem' a = load8 mem a) →
      x86_decode_ins_prefixes mem' A = x86_decode_ins_prefixes mem A ∧
      x86_decode_ins_prefixes_reads mem' A = x86_decode_ins_prefixes_reads mem A) ∧
    (∀ mem' : Mem, (∀ a, A ≤ a → a ≤ A + 46 → load8 mem' a = load8 mem a) →
      x86_decode_ins_prefixes mem' A = x86_decode_ins_prefixes mem A) ∧
    (x86_decode_ins_prefixes
      (bytesAt 0 (0x3e :: (List.replicate 16 [0xc4, 0, 0]).flatten)) 0).2 = 49 ∧
    46 ∈ x86_decode_ins_prefixes_reads
      (bytesAt 0 (0x3e :: (List.replicate 16 [0xc4, 0, 0]).flatten)) 0 ∧
    x86_decode_ins_prefixes
        (bytesAt 0 (0x3e :: (List.replicate 15 [0xc4, 0, 0]).flatten ++ [0x66, 0x90])) 0 ≠
      x86_decode_ins_prefixes
        (bytesAt 0 (0x3e :: (List.replicate 15 [0xc4, 0, 0]).flatten ++ [0x90, 0x90])) 0 := by
  have hn := scan_notrack_ins mem A
  have hb := scan_loop_ins_bounds mem 16 (scan_notrack mem A)
  have h1 : (if load8 mem A = 0x3e then 1 else 0) ≤ 1 := by split <;> omega
  have hbound : ∀ a ∈ x86_decode_ins_prefixes_reads mem A, A ≤ a ∧ a ≤ A + 46 := by
    intro a ha
    simp only [x86_decode_ins_prefixes_reads, List.mem_cons] at ha
    rcases ha with rfl | ha
    · omega
    · have := scan_loop_reads_bounds mem 16 _ a ha
      omega
  have hcongr : ∀ mem' : Mem,
      (∀ a ∈ x86_decode_ins_prefixes_reads mem A, load8 mem' a = load8 mem a) →
      x86_decode_ins_prefixes mem' A = x86_decode_ins_prefixes mem A ∧
      x86_decode_ins_prefixes_reads mem' A = x86_decode_ins_prefixes_reads mem A := by
    intro mem' hag
    have hA : load8 mem' A = load8 mem A :=
      hag A (by simp [x86_decode_ins_prefixes_reads])
    have hnt : scan_notrack mem' A = scan_notrack mem A := by
      simp only [scan_notrack, hA]
    obtain ⟨i1, i2⟩ := scan_loop_congr_reads mem mem' 16 (scan_notrack mem A)
      (fun a ha => hag a (by
        simp only [x86_decode_ins_prefixes_reads, List.mem_cons]
        exact Or.inr ha))
    simp only [x86_decode_ins_prefixes, x86_decode_ins_prefixes_reads, hnt, i1, i2, and_self]
  refine ⟨?_, ?_, hbound, hcongr, ?_, by decide, by decide, by decide⟩
  · simp only [x86_decode_ins_prefixes]
    omega
  · simp only [x86_decode_ins_prefixes]
    omega
  · intro mem' hag
    exact (hcongr mem' (fun a ha => hag a (hbound a ha).1 (hbound a ha).2)).1

/-! ## REX bits come from the last REX byte -/

/-- The mask test of the REX branch selects exactly the bytes 0x40..0x4F. -/
theorem rex_mask_iff (v : Nat) (hv : v < 256) : v &&& 0xf0 = 0x40 ↔ 0x40 ≤ v ∧ v ≤ 0x4f := by
  have : v &&& 0xf0 = v / 16 % 16 * 16 := by
    interval_cases v <;> rfl
  omega

theorem rex_bytes_scanned_rex (mem : Mem) (n : Nat) (s s' : Scan)
    (hb : scan_body mem s = .next s')
    (h : 0x40 ≤ load8 mem s.ins ∧ load8 mem s.ins ≤ 0x4f) :
    rex_bytes_scanned mem (n + 1) s = load8 mem s.ins :: rex_bytes_scanned mem n s' := by
  simp only [rex_bytes_scanned, scan_loop_reads, hb, List.map_cons]
  rw [List.filter_cons_of_pos (by simpa using h)]

theorem rex_bytes_scanned_other (mem : Mem) (n : Nat) (s s' : Scan)
    (hb : scan_body mem s = .next s')
    (h : ¬ (0x40 ≤ load8 mem s.ins ∧ load8 mem s.ins ≤ 0x4f)) :
    rex_bytes_scanned mem (n + 1) s = rex_bytes_scanned mem n s' := by
  simp only [rex_bytes_scanned, scan_loop_reads, hb, List.map_cons]
  rw [List.filter_cons_of_neg (by simpa using h)]

theorem rex_bytes_scanned_brk (mem : Mem) (n : Nat) (s s' : Scan)
    (hb : scan_body mem s = .brk s') :
    rex_bytes_scanned mem (n + 1) s = [] := by
  rcases scan_body_brk_facts mem s s' hb with ⟨h, _⟩ | ⟨h, _⟩
  · simp only [rex_bytes_scanned, scan_loop_reads, hb, List.map_cons, List.map_nil, h]
    rfl
  · have hv := load8_lt mem s.ins
    have hnr : ¬ (0x40 ≤ load8 mem s.ins ∧ load8 mem s.ins ≤ 0x4f) := by
      intro hc
      have := (rex_mask_iff _ hv).mpr hc
      simp [is_prefix_byte, this] at h
    simp only [rex_bytes_scanned, scan_loop_reads, hb, List.map_cons, List.map_nil]
    rw [List.filter_cons_of_neg (by simpa using hnr)]
    rfl

/-- The REX flags after the loop are those of the last REX byte it scanned, or
the ones it started with when it scanned none. -/
theorem scan_loop_rex (mem : Mem) (n : Nat) (s : Scan) :
    (∀ r, (rex_bytes_scanned mem n s).getLast? = some r →
      (scan_loop mem n s).result.rex_flags =
        (true, r.testBit 3, r.testBit 2, r.testBit 1, r.testBit 0)) ∧
    ((rex_bytes_scanned mem n s).getLast? = none →
      (scan_loop mem n s).result.rex_flags = s.result.rex_flags) := by
  induction n generalizing s with
  | zero =>
    constructor
    · intro r h
      simp [rex_bytes_scanned, scan_loop_reads] at h
    · intro _
      rfl
  | succ n ih =>
    by_cases hrex : 0x40 ≤ load8 mem s.ins ∧ load8 mem s.ins ≤ 0x4f
    · have hb := scan_body_rex mem s hrex.1 hrex.2
      have hl := rex_bytes_scanned_rex mem n s _ hb hrex
      obtain ⟨i1, i2⟩ := ih ⟨s.ins + 1,
        { s.result with
          has_w := (load8 mem s.ins).testBit 3
          has_r := (load8 mem s.ins).testBit 2
          has_x := (load8 mem s.ins).testBit 1
          has_b := (load8 mem s.ins).testBit 0
          has_any_rex := true }⟩
      rw [hl, scan_loop_next mem n s _ hb]
      cases hc : rex_bytes_scanned mem n ⟨s.ins + 1,
        { s.result with
          has_w := (load8 mem s.ins).testBit 3
          has_r := (load8 mem s.ins).testBit 2
          has_x := (load8 mem s.ins).testBit 1
          has_b := (load8 mem s.ins).testBit 0
          has_any_rex := true }⟩ with
      | nil =>
        rw [hc] at i2
        constructor
        · intro r hr
          simp only [List.getLast?_singleton, Option.some.injEq] at hr
          subst hr
          rw [i2 rfl]
          rfl
        · intro hr
          simp at hr
      | cons b t =>
        rw [hc] at i1
        constructor
        · intro r hr
          rw [List.getLast?_cons_cons] at hr
          exact i1 r hr
        · intro hr
          rw [List.getLast?_cons_cons] at hr
          simp [List.getLast?_eq_none_iff] at hr
    · have hfr := scan_body_rex_frame mem s hrex
      cases hb : scan_body mem s with
      | next s' =>
        rw [hb] at hfr
        simp only [Flow.scan] at hfr
        obtain ⟨i1, i2⟩ := ih s'
        rw [rex_bytes_scanned_other mem n s s' hb hrex, scan_loop_next mem n s s' hb]
        exact ⟨i1, fun h => (i2 h).trans hfr⟩
      | brk s' =>
        rw [hb] at hfr
        simp only [Flow.scan] at hfr
        rw [rex_bytes_scanned_brk mem n s s' hb, scan_loop_brk mem n s s' hb]
        exact ⟨fun r h => by simp at h, fun _ => hfr⟩

/-- Claim C20: when the loop scans at least one byte in 0x40..0x4F, the returned
`has_w`, `has_r`, `has_x` and `has_b` are bits 3, 2, 1 and 0 of the last such
byte scanned and `has_any_rex` is set, whatever prefix bytes follow it; when it
scans none, `has_any_rex` and the four bits are all false. -/
theorem rex_bits_from_last_rex_byte (mem : Mem) (A : Nat) :
    (∀ r, (rex_bytes_scanned mem 16 (scan_notrack mem A)).getLast? = some r →
      (x86_decode_ins_prefixes mem A).1.has_any_rex = true ∧
      (x86_decode_ins_prefixes mem A).1.has_w = r.testBit 3 ∧
      (x86_decode_ins_prefixes mem A).1.has_r = r.testBit 2 ∧
      (x86_decode_ins_prefixes mem A).1.has_x = r.testBit 1 ∧
      (x86_decode_ins_prefixes mem A).1.has_b = r.testBit 0) ∧
    (rex_bytes_scanned mem 16 (scan_notrack mem A) = [] →
      (x86_decode_ins_prefixes mem A).1.has_any_rex = false ∧
      (x86_decode_ins_prefixes mem A).1.has_w = false ∧
      (x86_decode_ins_prefixes mem A).1.has_r = false ∧
      (x86_decode_ins_prefixes mem A).1.has_x = false ∧
      (x86_decode_ins_prefixes mem A).1.has_b = false) := by
  obtain ⟨i1, i2⟩ := scan_loop_rex mem 16 (scan_notrack mem A)
  have h0 : (scan_notrack mem A).result.rex_flags = (false, false, false, false, false) := by
    unfold scan_notrack
    split <;> rfl
  constructor
  · intro r hr
    have := i1 r hr
    simp only [x86_ins_prefixes.rex_flags, Prod.mk.injEq] at this
    simpa only [x86_decode_ins_prefixes] using this
  · intro hn
    have := (i2 (by rw [hn]; rfl)).trans h0
    simp only [x86_ins_prefixes.rex_flags, Prod.mk.injEq] at this
    simpa only [x86_decode_ins_prefixes] using this

/-- Instances of C20: in 48 41 90 the last REX byte is 0x41, so `has_w` is clear
and `has_b` is set; in 48 66 90 the operand-size prefix after the REX byte
leaves `has_w` set; in 66 90 no REX byte is scanned and no REX flag is set. -/
theorem rex_bits_from_last_rex_byte_witness :
    x86_decode_ins_prefixes (bytesAt 0 [0x48, 0x41, 0x90]) 0 =
      ({ x86_ins_prefixes.zero with has_b := true, has_any_rex := true }, 2) ∧
    ((x86_decode_ins_prefixes (bytesAt 0 [0x48, 0x66, 0x90]) 0).1.has_any_rex = true ∧
      (x86_decode_ins_prefixes (bytesAt 0 [0x48, 0x66, 0x90]) 0).1.has_w = Nat.testBit 0x48 3 ∧
      (x86_decode_ins_prefixes (bytesAt 0 [0x48, 0x66, 0x90]) 0).1.has_r = Nat.testBit 0x48 2 ∧
      (x86_decode_ins_prefixes (bytesAt 0 [0x48, 0x66, 0x90]) 0).1.has_x = Nat.testBit 0x48 1 ∧
      (x86_decode_ins_prefixes (bytesAt 0 [0x48, 0x66, 0x90]) 0).1.has_b = Nat.testBit 0x48 0) ∧
    (x86_decode_ins_prefixes (bytesAt 0 [0x66, 0x90]) 0).1.has_any_rex = false :=
  ⟨by decide,
   (rex_bits_from_last_rex_byte (bytesAt 0 [0x48, 0x66, 0x90]) 0).1 0x48 (by decide),
   ((rex_bits_from_last_rex_byte (bytesAt 0 [0x66, 0x90]) 0).2 (by decide)).1⟩

end Callander
